import Mathlib

/-!
Verification development for the `fmtimports` import-grouping tool.

The repository contains two sequential variants of the same tool:
* `main.go` — the fixed four-bucket classifier (`sortDecl`), which stable-sorts
  each bucket by the quoted path literal;
* the configurable variant (`sortImportSpecs`), which matches an ordered list of
  compiled regular-expression rules, first match wins, without an inner sort.

Both share the `sortImports` driver loop and the line-table splice.  Positions
follow `go/token` with file base 1, so `offset p = p - 1`; the line table is the
list of line-start byte offsets.
-/

namespace Fmtimports

/-- Occurrence of `sub` as a contiguous run inside a character list. -/
def listContains (sub : List Char) : List Char → Bool
  | [] => sub.isEmpty
  | c :: rest => sub.isPrefixOf (c :: rest) || listContains sub rest

/-- Go `strings.Contains`: substring containment, modelled on character lists. -/
def strContains (s sub : String) : Bool := listContains sub.data s.data

/-- Go `strings.HasPrefix`, modelled on character lists. -/
def strStartsWith (s p : String) : Bool := p.data.isPrefixOf s.data

/-- Go `strings.Replace(s, q, e, -1)` for the single-character double-quote
    pattern and the empty replacement: removes every double-quote character. -/
def stripQuotes (s : String) : String := String.mk (s.data.filter (fun c => c ≠ '"'))

/-- The head of Go `strings.Split(s, slash)`: the prefix before the first slash
    (the only component of the split that `sortDecl` reads). -/
def firstSegment (s : String) : String := String.mk (s.data.takeWhile (fun c => c ≠ '/'))

/-- Go `strings.Split(s, sp)` for a single-character separator, on char lists. -/
def splitOnCharList (sep : Char) : List Char → List (List Char)
  | [] => [[]]
  | c :: cs =>
    match splitOnCharList sep cs with
    | [] => [[]]
    | p :: ps => if c = sep then [] :: p :: ps else (c :: p) :: ps

/-- Go `strings.Split(s, sp)` for the single-space separator used by `initRules`. -/
def splitSpaces (s : String) : List String := (splitOnCharList ' ' s.data).map String.mk

/-- Model of `go/token.File`: the table of line-start byte offsets and the file
    size.  Positions use the Go base of 1. -/
structure FileModel where
  lines : List Nat
  size : Nat
deriving DecidableEq

/-- Go `File.Offset`: positions have base 1, offsets base 0. -/
def offsetOfPos (p : Nat) : Nat := p - 1

/-- Go `File.Line(p)` (via `Position`): `searchInts(lines, offset(p)) + 1`, the
    number of line-start offsets not exceeding the offset of `p` (the binary
    search agrees with this on the sorted tables the tool maintains). -/
def lineOfPos (f : FileModel) (p : Nat) : Nat :=
  (f.lines.takeWhile (fun o => decide (o ≤ p - 1))).length

/-- Go `File.Offset(File.LineStart(l))`: the recorded start offset of line `l`. -/
def lineStartOffset (f : FileModel) (l : Nat) : Nat := f.lines.getD (l - 1) 0

/-- Go `File.LineCount`. -/
def lineCount (f : FileModel) : Nat := f.lines.length

/-- Boolean strict-increase check used by `File.SetLines`. -/
def chainLtBool : List Nat → Bool
  | [] => true
  | [_] => true
  | a :: b :: rest => decide (a < b) && chainLtBool (b :: rest)

/-- Go `File.SetLines`: the new table is installed only when strictly increasing
    and bounded by the file size; otherwise `SetLines` returns false and the old
    table is kept (the tool ignores the returned flag). -/
def setLines (f : FileModel) (ls : List Nat) : FileModel :=
  if chainLtBool ls && ls.all (fun o => decide (o < f.size)) then
    { f with lines := ls }
  else f

/-- Model of `*ast.ImportSpec`: `name` is `Name.NamePos` when an alias is
    present, `pathValue` is `Path.Value` (the literal text including its
    quotes), `valuePos` is `Path.ValuePos`, `endPos` is the `EndPos` field
    (0 meaning unset), and `comment` stands for the attached comment text,
    which the tool never writes. -/
structure ImportSpec where
  name : Option Nat
  pathValue : String
  valuePos : Nat
  endPos : Nat
  comment : String
deriving DecidableEq

/-- Model of `ImportSpec.Pos()`: the alias position when present, else the path literal. -/
def specPos (s : ImportSpec) : Nat :=
  match s.name with
  | some np => np
  | none => s.valuePos

/-- Model of `ImportSpec.End()`: the `EndPos` override when set, else `Path.End()`. -/
def specEnd (s : ImportSpec) : Nat :=
  if s.endPos ≠ 0 then s.endPos else s.valuePos + s.pathValue.length

/-- Rendered width of the spec's span. -/
def widthOf (s : ImportSpec) : Nat := specEnd s - specPos s

/-- The fields the transformation never writes: path literal, presence of an
    alias, comment text. -/
structure SpecContent where
  path : String
  hasAlias : Bool
  comment : String
deriving DecidableEq

def content (s : ImportSpec) : SpecContent :=
  ⟨s.pathValue, s.name.isSome, s.comment⟩

/-- The four buckets of the fixed classifier in `main.go`. -/
inductive Bucket where
  | std | ext | k8s | loc
deriving DecidableEq

/-- The if/else-if classification chain of `sortDecl` in `main.go`, tried in
    this order: standard library, local (`k8s.io/kubernetes...`), other
    `k8s.io`, external. -/
def classify (s : ImportSpec) : Bucket :=
  let importPath := stripQuotes s.pathValue
  let part0 := firstSegment importPath
  if !(strContains part0 (".")) then Bucket.std
  else if strStartsWith importPath ("k8s.io/kubernetes") then Bucket.loc
  else if strContains part0 ("k8s.io") then Bucket.k8s
  else Bucket.ext

/-- Comparison relation of `sort.SliceStable(gImps, less)` in `main.go` with
    `less i j = Path.Value i < Path.Value j`: the associated total preorder. -/
def pathLe (a b : ImportSpec) : Prop := a.pathValue ≤ b.pathValue

instance : DecidableRel pathLe := fun a b =>
  inferInstanceAs (Decidable (a.pathValue ≤ b.pathValue))

instance : IsTotal ImportSpec pathLe := ⟨fun a b => le_total a.pathValue b.pathValue⟩

instance : IsTrans ImportSpec pathLe := ⟨fun _ _ _ h1 h2 => le_trans h1 h2⟩

/-- Model of `sort.SliceStable` on one group: the stable sort by the quoted path string. -/
def sortGroup (g : List ImportSpec) : List ImportSpec := List.insertionSort pathLe g

/-- Span rewrite applied to one placed spec: `NamePos` (when an alias is
    present), `ValuePos` and `EndPos` are overwritten, nothing else. -/
def reposition (s : ImportSpec) (sPos ePos : Nat) : ImportSpec :=
  { s with name := s.name.map (fun _ => sPos), valuePos := sPos, endPos := ePos }

/-- Mutable state of the `sortDecl` loop in `main.go`. -/
structure SynthState where
  orderedImports : List ImportSpec
  impLines : List Nat
  offset : Nat
deriving DecidableEq

/-- Body of the inner placement loop of `sortDecl`: record the line slot, set
    `sPos = offset + 1`, `ePos = sPos + (End - Pos)`, rewrite the spec's span,
    append it, advance the offset. -/
def placeSpec (st : SynthState) (s : ImportSpec) : SynthState :=
  let sPos := st.offset + 1
  let ePos := sPos + specEnd s - specPos s
  { orderedImports := st.orderedImports ++ [reposition s sPos ePos]
    impLines := st.impLines ++ [st.offset]
    offset := ePos }

/-- Body of the group loop of `sortDecl`: place all entries, then, for a
    non-empty group only, record one separator slot and advance by one. -/
def placeGroup (st : SynthState) (g : List ImportSpec) : SynthState :=
  let st1 := g.foldl placeSpec st
  if g.length ≠ 0 then
    { st1 with impLines := st1.impLines ++ [st1.offset], offset := st1.offset + 1 }
  else st1

/-- The four classified groups of `sortDecl` in the emission order of its outer
    loop: stdlib, external, k8s, local. -/
def emissionGroups (specs : List ImportSpec) : List (List ImportSpec) :=
  [ specs.filter (fun s => classify s == Bucket.std)
  , specs.filter (fun s => classify s == Bucket.ext)
  , specs.filter (fun s => classify s == Bucket.k8s)
  , specs.filter (fun s => classify s == Bucket.loc) ]

/-- The placement loop of `sortDecl`: starting offset is the start of the line
    after the line holding the declaration start, each bucket is stable-sorted
    and placed. -/
def sortDeclState (f : FileModel) (specs : List ImportSpec) (start : Nat) : SynthState :=
  let offset0 := lineStartOffset f (lineOfPos f start + 1)
  (emissionGroups specs).foldl (fun st g => placeGroup st (sortGroup g)) ⟨[], [], offset0⟩

/-- The spliced line table of `sortDecl`: original offsets of lines
    `1 .. impStartLine`, the recorded slots, then the original offsets of lines
    `impEndLine + 1 .. LineCount`. -/
def sortDeclLines (f : FileModel) (specs : List ImportSpec) (start endP : Nat) : List Nat :=
  ((List.range' 1 (lineOfPos f start)).map (fun i => lineStartOffset f i))
    ++ (sortDeclState f specs start).impLines
    ++ ((List.range' (lineOfPos f endP + 1) (lineCount f - lineOfPos f endP)).map
          (fun i => lineStartOffset f i))

/-- Model of `sortDecl` in `main.go`: classify, stable-sort and place every bucket,
    then splice and install the file line table. -/
def sortDecl (f : FileModel) (specs : List ImportSpec) (start endP : Nat) :
    List ImportSpec × FileModel :=
  ((sortDeclState f specs start).orderedImports,
    setLines f (sortDeclLines f specs start endP))

/-- RE2 `\w` (ASCII word character). -/
def wordChar (c : Char) : Bool := c.isAlphanum || c = '_'

/-- Translation of the compiled built-in rule `^"\w*"$` of the configurable
    variant (anchored match on the quoted literal). -/
def stdlibPat (s : String) : Bool :=
  let cs := s.data
  decide (2 ≤ cs.length) && (cs.head? == some '"') && (cs.getLast? == some '"')
    && ((cs.drop 1).dropLast.all wordChar)

/-- Translation of the compiled built-in catch-all rule `^".*"$` of the
    configurable variant; `.` does not match a newline. -/
def catchAllPat (s : String) : Bool :=
  let cs := s.data
  decide (2 ≤ cs.length) && (cs.head? == some '"') && (cs.getLast? == some '"')
    && ((cs.drop 1).dropLast.all (fun c => c ≠ '\n'))

/-- Mutable state of the rule loop of `sortImportSpecs`. -/
structure S2State where
  specsRes : List ImportSpec
  importLines : List Nat
  startOffset : Nat
  line : Nat
deriving DecidableEq

/-- Body of the match branch of `sortImportSpecs`: record the slot, rewrite the
    spec's span from its snapshotted original span, append it, advance. -/
def place2 (st : S2State) (s : ImportSpec) : S2State :=
  let sPos := st.startOffset + 1
  let ePos := sPos + specEnd s - specPos s
  { specsRes := st.specsRes ++ [reposition s sPos ePos]
    importLines := st.importLines ++ [st.startOffset]
    startOffset := ePos
    line := st.line + 1 }

/-- Inner loop of `sortImportSpecs` for one pattern: walk the specs with their
    `specMatched` flags, placing each not-yet-matched spec the pattern matches. -/
def ruleSpecLoop (pat : String → Bool) :
    List (ImportSpec × Bool) → S2State → List Bool × S2State
  | [], st => ([], st)
  | (s, m) :: rest, st =>
    if m then
      let r := ruleSpecLoop pat rest st
      (true :: r.1, r.2)
    else if pat s.pathValue then
      let r := ruleSpecLoop pat rest (place2 st s)
      (true :: r.1, r.2)
    else
      let r := ruleSpecLoop pat rest st
      (false :: r.1, r.2)

/-- Epilogue of each pattern iteration: one unconditional separator slot, line
    and offset advance (note: not guarded by group non-emptiness). -/
def sealRule (st : S2State) : S2State :=
  { st with importLines := st.importLines ++ [st.startOffset]
            line := st.line + 1
            startOffset := st.startOffset + 1 }

/-- Outer pattern loop of `sortImportSpecs`. -/
def rulesLoop : List (String → Bool) → List ImportSpec → List Bool → S2State →
    List Bool × S2State
  | [], _, fs, st => (fs, st)
  | p :: ps, specs, fs, st =>
    let r := ruleSpecLoop p (specs.zip fs) st
    rulesLoop ps specs r.1 (sealRule r.2)

/-- The rule loop of `sortImportSpecs` with its initial state: offset starts one
    past the offset of the declaration start position, the matched flags start
    all false. -/
def sortImportSpecsState (f : FileModel) (rules : List (String → Bool))
    (specs : List ImportSpec) (startPos : Nat) : S2State :=
  (rulesLoop rules specs (List.replicate specs.length false)
    ⟨[], [], offsetOfPos startPos + 1, lineOfPos f startPos + 1⟩).2

/-- The spliced line table of `sortImportSpecs`: original offsets of lines
    `1 .. startLineIndex`, the recorded slots, then the original offsets of
    lines `endLineIndex .. LineCount` (the copied tail starts at the closing
    line itself in this variant). -/
def sortImportSpecsLines (f : FileModel) (rules : List (String → Bool))
    (specs : List ImportSpec) (startPos endPos : Nat) : List Nat :=
  ((List.range' 1 (lineOfPos f startPos)).map (fun i => lineStartOffset f i))
    ++ (sortImportSpecsState f rules specs startPos).importLines
    ++ ((List.range' (lineOfPos f endPos) (lineCount f + 1 - lineOfPos f endPos)).map
          (fun i => lineStartOffset f i))

/-- Model of `sortImportSpecs` in the configurable variant. -/
def sortImportSpecs (f : FileModel) (rules : List (String → Bool))
    (specs : List ImportSpec) (startPos endPos : Nat) :
    List ImportSpec × FileModel :=
  ((sortImportSpecsState f rules specs startPos).specsRes,
    setLines f (sortImportSpecsLines f rules specs startPos endPos))

/-- Top-level declarations as the driver sees them: an import `GenDecl` with its
    `Lparen` validity, specs and span, or anything else (a non-import
    declaration, at which the loop stops). -/
inductive Decl where
  | importGen (lparen : Bool) (specs : List ImportSpec) (pos endP : Nat)
  | other
deriving DecidableEq

/-- The `sortImports` driver loop shared verbatim by both variants,
    parameterised by the block transformation: stop at the first non-import
    declaration, skip non-block or single-entry imports untouched, transform
    the remaining blocks. -/
def sortImportsWith
    (t : FileModel → List ImportSpec → Nat → Nat → List ImportSpec × FileModel) :
    FileModel → List Decl → FileModel × List Decl
  | f, [] => (f, [])
  | f, Decl.other :: ds => (f, Decl.other :: ds)
  | f, Decl.importGen lp specs pos endP :: ds =>
    if lp = false ∨ specs.length ≤ 1 then
      let r := sortImportsWith t f ds
      (r.1, Decl.importGen lp specs pos endP :: r.2)
    else
      let r1 := t f specs pos endP
      let r := sortImportsWith t r1.2 ds
      (r.1, Decl.importGen lp r1.1 pos endP :: r.2)

/-- The driver of `main.go`. -/
def sortImportsV1 (f : FileModel) (ds : List Decl) : FileModel × List Decl :=
  sortImportsWith sortDecl f ds

/-- The driver of the configurable variant. -/
def sortImportsV2 (rules : List (String → Bool)) (f : FileModel) (ds : List Decl) :
    FileModel × List Decl :=
  sortImportsWith (fun f specs p e => sortImportSpecs f rules specs p e) f ds

def stdlibPatStr : String := "^\"\\w*\"$"

def catchAllPatStr : String := "^\".*\"$"

/-- Model of `initRules` in the configurable variant: the built-in first and last
    patterns around the user-supplied ones, each compiled with the error
    DISCARDED (the second return value of regexp.Compile is assigned to
    the blank identifier), so an uncompilable pattern
    contributes a nil (`none`) matcher instead of being reported or excluded. -/
def initRules (compile : String → Option (String → Bool)) (orderRule : String) :
    List (Option (String → Bool)) :=
  ([stdlibPatStr]
    ++ (if orderRule ≠ ("") then splitSpaces orderRule else [])
    ++ [catchAllPatStr]).map compile

/-- Model of `MatchString` on a possibly nil compiled pattern: `none` models the
    nil-pointer panic that a discarded compilation error causes at first use. -/
def matchOpt (p : Option (String → Bool)) (s : String) : Option Bool :=
  match p with
  | none => none
  | some m => some (m s)

/-- Closed form of the inner placement loop: placed entries, recorded slots and
    the final running offset for one run of entries. -/
def placeRun : Nat → List ImportSpec → List ImportSpec × List Nat × Nat
  | off, [] => ([], [], off)
  | off, s :: rest =>
    let sPos := off + 1
    let ePos := sPos + specEnd s - specPos s
    let r := placeRun ePos rest
    (reposition s sPos ePos :: r.1, off :: r.2.1, r.2.2)

/-- Closed form of the group loop of `sortDecl`: after each non-empty group one
    separator slot is recorded and the offset advances by one. -/
def groupsRun : Nat → List (List ImportSpec) → List ImportSpec × List Nat × Nat
  | off, [] => ([], [], off)
  | off, g :: gs =>
    let r := placeRun off g
    let sep : List Nat := if g.length ≠ 0 then [r.2.2] else []
    let off2 : Nat := if g.length ≠ 0 then r.2.2 + 1 else r.2.2
    let r2 := groupsRun off2 gs
    (r.1 ++ r2.1, r.2.1 ++ sep ++ r2.2.1, r2.2.2)

/-- Closed form of the rule loop of the configurable variant: each rule places,
    in original order, the pending entries it matches, then records one
    separator slot unconditionally. -/
def rulesRun : Nat → List (String → Bool) → List ImportSpec →
    List ImportSpec × List Nat × Nat
  | off, [], _ => ([], [], off)
  | off, r :: rs, pending =>
    let a := placeRun off (pending.filter (fun s => r s.pathValue))
    let b := rulesRun (a.2.2 + 1) rs (pending.filter (fun s => !(r s.pathValue)))
    (a.1 ++ b.1, a.2.1 ++ [a.2.2] ++ b.2.1, b.2.2)

/-- Modelled from the spec: slots for one group of entry widths, one slot per
    entry, each advancing by width plus one. -/
def entrySlots : Nat → List Nat → List Nat × Nat
  | off, [] => ([], off)
  | off, w :: ws =>
    let r := entrySlots (off + 1 + w) ws
    (off :: r.1, r.2)

/-- Modelled from the spec and the claim: the blank-line slot discipline — only
    non-empty groups appear, each as its entry slots followed by exactly one
    separator slot; an empty group contributes nothing. -/
def claimSlots : Nat → List (List Nat) → List Nat
  | _, [] => []
  | off, ([]) :: gs => claimSlots off gs
  | off, (w :: ws) :: gs =>
    let r := entrySlots off (w :: ws)
    r.1 ++ [r.2] ++ claimSlots (r.2 + 1) gs

/-- Modelled from the spec: first-match-wins grouping — each rule takes, in
    original order, the entries it matches among those no earlier rule matched. -/
def v2Groups : List (String → Bool) → List ImportSpec → List (List ImportSpec)
  | [], _ => []
  | r :: rs, pending =>
    pending.filter (fun s => r s.pathValue)
      :: v2Groups rs (pending.filter (fun s => !(r s.pathValue)))

theorem foldl_placeSpec (g : List ImportSpec) :
    ∀ (o : List ImportSpec) (l : List Nat) (off : Nat),
      g.foldl placeSpec ⟨o, l, off⟩ =
        ⟨o ++ (placeRun off g).1, l ++ (placeRun off g).2.1, (placeRun off g).2.2⟩ := by
  induction g with
  | nil => intro o l off; simp [placeRun]
  | cons s rest ih =>
    intro o l off
    simp only [List.foldl_cons, placeSpec, placeRun, ih]
    simp

theorem foldl_placeGroup (gs : List (List ImportSpec)) :
    ∀ (o : List ImportSpec) (l : List Nat) (off : Nat),
      gs.foldl placeGroup ⟨o, l, off⟩ =
        ⟨o ++ (groupsRun off gs).1, l ++ (groupsRun off gs).2.1, (groupsRun off gs).2.2⟩ := by
  induction gs with
  | nil => intro o l off; simp [groupsRun]
  | cons g gs ih =>
    intro o l off
    rcases eq_or_ne g [] with hg | hg
    · subst hg
      simp [placeGroup, groupsRun, placeRun, ih]
    · have hlen : g.length ≠ 0 := by simpa using hg
      simp [placeGroup, foldl_placeSpec, groupsRun, hlen, ih]

theorem sortDeclState_eq (f : FileModel) (specs : List ImportSpec) (start : Nat) :
    sortDeclState f specs start =
      ⟨(groupsRun (lineStartOffset f (lineOfPos f start + 1))
          ((emissionGroups specs).map sortGroup)).1,
       (groupsRun (lineStartOffset f (lineOfPos f start + 1))
          ((emissionGroups specs).map sortGroup)).2.1,
       (groupsRun (lineStartOffset f (lineOfPos f start + 1))
          ((emissionGroups specs).map sortGroup)).2.2⟩ := by
  unfold sortDeclState
  rw [← List.foldl_map sortGroup placeGroup]
  rw [foldl_placeGroup]
  simp

theorem content_reposition (s : ImportSpec) (a b : Nat) :
    content (reposition s a b) = content s := by
  cases s with
  | mk nm pv vp ep cm => cases nm <;> simp [content, reposition]

theorem path_reposition (s : ImportSpec) (a b : Nat) :
    (reposition s a b).pathValue = s.pathValue := rfl

theorem classify_reposition (s : ImportSpec) (a b : Nat) :
    classify (reposition s a b) = classify s := rfl

/-- Span relation between a placed entry and its source entry: content is
    untouched and the new end is the new start plus the original width. -/
def spanR (a b : ImportSpec) : Prop :=
  content a = content b ∧ specEnd a = specPos a + (specEnd b - specPos b)

theorem placeRun_map_content (g : List ImportSpec) :
    ∀ off, ((placeRun off g).1).map content = g.map content := by
  induction g with
  | nil => intro off; simp [placeRun]
  | cons s rest ih => intro off; simp [placeRun, content_reposition, ih]

theorem placeRun_map_path (g : List ImportSpec) :
    ∀ off, ((placeRun off g).1).map (fun s => s.pathValue) = g.map (fun s => s.pathValue) := by
  induction g with
  | nil => intro off; simp [placeRun]
  | cons s rest ih => intro off; simp [placeRun, path_reposition, ih]

theorem placeRun_lengths (g : List ImportSpec) :
    ∀ off, ((placeRun off g).1).length = g.length ∧ ((placeRun off g).2.1).length = g.length := by
  induction g with
  | nil => intro off; simp [placeRun]
  | cons s rest ih => intro off; simp [placeRun, ih]

theorem specPos_reposition (s : ImportSpec) (a b : Nat) :
    specPos (reposition s a b) = a := by
  cases s with
  | mk nm pv vp ep cm => cases nm <;> simp [specPos, reposition]

theorem specEnd_reposition (s : ImportSpec) (a b : Nat) (hb : b ≠ 0) :
    specEnd (reposition s a b) = b := by
  simp [specEnd, reposition, hb]

theorem placeRun_entries (g : List ImportSpec) :
    ∀ off, (∀ s ∈ g, specPos s ≤ specEnd s) →
      List.Forall₂ spanR ((placeRun off g).1) g := by
  induction g with
  | nil => intro off _; simp [placeRun]
  | cons s rest ih =>
    intro off hwf
    have hs : specPos s ≤ specEnd s := hwf s (by simp)
    have hne : off + 1 + specEnd s - specPos s ≠ 0 := by omega
    refine List.Forall₂.cons ?_ (ih _ (fun x hx => hwf x (by simp [hx])))
    constructor
    · exact content_reposition s _ _
    · rw [specPos_reposition, specEnd_reposition _ _ _ hne]
      omega

theorem placeRun_wf (g : List ImportSpec) :
    ∀ off, (∀ s ∈ g, specPos s ≤ specEnd s) →
      ∀ x ∈ (placeRun off g).1, specPos x ≤ specEnd x := by
  induction g with
  | nil => intro off _ x hx; simp [placeRun] at hx
  | cons s rest ih =>
    intro off hwf x hx
    have hs : specPos s ≤ specEnd s := hwf s (by simp)
    have hne : off + 1 + specEnd s - specPos s ≠ 0 := by omega
    simp only [placeRun, List.mem_cons] at hx
    rcases hx with hx | hx
    · subst hx
      rw [specPos_reposition, specEnd_reposition _ _ _ hne]
      omega
    · exact ih _ (fun y hy => hwf y (by simp [hy])) x hx

theorem placeRun_slots (g : List ImportSpec) :
    ∀ off, (∀ s ∈ g, specPos s ≤ specEnd s) →
      ((placeRun off g).2.1).Pairwise (fun a b => a < b)
      ∧ (∀ x ∈ (placeRun off g).2.1, off ≤ x ∧ x < (placeRun off g).2.2)
      ∧ off ≤ (placeRun off g).2.2 := by
  induction g with
  | nil => intro off _; simp [placeRun]
  | cons s rest ih =>
    intro off hwf
    have hs : specPos s ≤ specEnd s := hwf s (by simp)
    have hrest := ih (off + 1 + specEnd s - specPos s)
      (fun x hx => hwf x (by simp [hx]))
    have hstep : off < off + 1 + specEnd s - specPos s := by omega
    simp only [placeRun, List.pairwise_cons, List.mem_cons]
    refine ⟨⟨?_, hrest.1⟩, ?_, ?_⟩
    · intro x hx
      have := hrest.2.1 x hx
      omega
    · intro x hx
      rcases hx with hx | hx
      · subst hx
        have := hrest.2.2
        omega
      · have := hrest.2.1 x hx
        constructor <;> omega
    · have := hrest.2.2
      omega

theorem placeRun_claim (g : List ImportSpec) :
    ∀ off, (∀ s ∈ g, specPos s ≤ specEnd s) →
      (placeRun off g).2.1 = (entrySlots off (g.map widthOf)).1
      ∧ (placeRun off g).2.2 = (entrySlots off (g.map widthOf)).2 := by
  induction g with
  | nil => intro off _; simp [placeRun, entrySlots]
  | cons s rest ih =>
    intro off hwf
    have hs : specPos s ≤ specEnd s := hwf s (by simp)
    have harith : off + 1 + specEnd s - specPos s = off + 1 + widthOf s := by
      unfold widthOf; omega
    have hrest := ih (off + 1 + widthOf s) (fun x hx => hwf x (by simp [hx]))
    simp only [placeRun, entrySlots, List.map_cons, harith]
    exact ⟨by rw [hrest.1], by rw [hrest.2]⟩

theorem groupsRun_cons_nil (gs : List (List ImportSpec)) (off : Nat) :
    groupsRun off ([] :: gs) = groupsRun off gs := by
  simp [groupsRun, placeRun]

theorem groupsRun_cons_ne (g : List ImportSpec) (gs : List (List ImportSpec)) (off : Nat)
    (h : g ≠ []) :
    groupsRun off (g :: gs) =
      ((placeRun off g).1 ++ (groupsRun ((placeRun off g).2.2 + 1) gs).1,
       (placeRun off g).2.1 ++ [(placeRun off g).2.2]
         ++ (groupsRun ((placeRun off g).2.2 + 1) gs).2.1,
       (groupsRun ((placeRun off g).2.2 + 1) gs).2.2) := by
  have hlen : g.length ≠ 0 := by simpa using h
  simp [groupsRun, hlen]

theorem groupsRun_ents_ne (g : List ImportSpec) (gs : List (List ImportSpec)) (off : Nat)
    (h : g ≠ []) :
    (groupsRun off (g :: gs)).1 =
      (placeRun off g).1 ++ (groupsRun ((placeRun off g).2.2 + 1) gs).1 := by
  rw [groupsRun_cons_ne g gs off h]

theorem groupsRun_slots_ne (g : List ImportSpec) (gs : List (List ImportSpec)) (off : Nat)
    (h : g ≠ []) :
    (groupsRun off (g :: gs)).2.1 =
      (placeRun off g).2.1 ++ [(placeRun off g).2.2]
        ++ (groupsRun ((placeRun off g).2.2 + 1) gs).2.1 := by
  rw [groupsRun_cons_ne g gs off h]

theorem groupsRun_off_ne (g : List ImportSpec) (gs : List (List ImportSpec)) (off : Nat)
    (h : g ≠ []) :
    (groupsRun off (g :: gs)).2.2 = (groupsRun ((placeRun off g).2.2 + 1) gs).2.2 := by
  rw [groupsRun_cons_ne g gs off h]

theorem groupsRun_map_content (gs : List (List ImportSpec)) :
    ∀ off, ((groupsRun off gs).1).map content = gs.flatten.map content := by
  induction gs with
  | nil => intro off; simp [groupsRun]
  | cons g gs ih =>
    intro off
    rcases eq_or_ne g [] with hge | hge
    · subst hge
      rw [groupsRun_cons_nil, ih off]
      simp
    · rw [groupsRun_ents_ne g gs off hge]
      simp [placeRun_map_content, ih]

theorem groupsRun_entries (gs : List (List ImportSpec)) :
    ∀ off, (∀ s ∈ gs.flatten, specPos s ≤ specEnd s) →
      List.Forall₂ spanR ((groupsRun off gs).1) gs.flatten := by
  induction gs with
  | nil => intro off _; simp [groupsRun]
  | cons g gs ih =>
    intro off hwf
    rcases eq_or_ne g [] with hge | hge
    · subst hge
      rw [groupsRun_cons_nil]
      simpa using ih off (fun s hs => hwf s (by simp [hs]))
    · rw [groupsRun_ents_ne g gs off hge]
      simp only [List.flatten_cons]
      exact List.rel_append
        (placeRun_entries g off (fun s hs => hwf s (by simp [hs])))
        (ih _ (fun s hs => hwf s (by simp [hs])))

theorem groupsRun_lengths (gs : List (List ImportSpec)) :
    ∀ off, ((groupsRun off gs).1).length = gs.flatten.length
      ∧ ((groupsRun off gs).2.1).length
          = gs.flatten.length + (gs.filter (fun g => !g.isEmpty)).length := by
  induction gs with
  | nil => intro off; simp [groupsRun]
  | cons g gs ih =>
    intro off
    rcases eq_or_ne g [] with hge | hge
    · subst hge
      rw [groupsRun_cons_nil]
      have hrec := ih off
      simp only [List.flatten_cons, List.nil_append]
      refine ⟨hrec.1, ?_⟩
      rw [hrec.2]
      simp
    · have h1 := (placeRun_lengths g off).1
      have h2 := (placeRun_lengths g off).2
      have hie : (!g.isEmpty) = true := by
        simp only [List.isEmpty_iff, Bool.not_eq_true', Bool.not_eq_false]
        simpa [List.isEmpty_iff] using hge
      have hrec := ih ((placeRun off g).2.2 + 1)
      rw [groupsRun_ents_ne g gs off hge, groupsRun_slots_ne g gs off hge]
      constructor
      · simp [h1, hrec.1]
      · have hfc : List.filter (fun g => !g.isEmpty) (g :: gs)
            = g :: List.filter (fun g => !g.isEmpty) gs := by
          simp [List.filter_cons, hie]
        rw [hfc]
        have h3 : ((placeRun off g).2.1 ++ [(placeRun off g).2.2]
            ++ (groupsRun ((placeRun off g).2.2 + 1) gs).2.1).length
            = g.length + 1 + ((groupsRun ((placeRun off g).2.2 + 1) gs).2.1).length := by
          simp [h2]
          omega
        rw [h3, hrec.2]
        simp only [List.flatten_cons, List.length_append, List.length_cons]
        omega

theorem groupsRun_slots (gs : List (List ImportSpec)) :
    ∀ off, (∀ s ∈ gs.flatten, specPos s ≤ specEnd s) →
      ((groupsRun off gs).2.1).Pairwise (fun a b => a < b)
      ∧ (∀ x ∈ (groupsRun off gs).2.1, off ≤ x ∧ x < (groupsRun off gs).2.2)
      ∧ off ≤ (groupsRun off gs).2.2 := by
  induction gs with
  | nil => intro off _; simp [groupsRun]
  | cons g gs ih =>
    intro off hwf
    have hg := placeRun_slots g off (fun s hs => hwf s (by simp [hs]))
    rcases eq_or_ne g [] with hge | hge
    · subst hge
      rw [groupsRun_cons_nil]
      exact ih off (fun s hs => hwf s (by simp [hs]))
    · have hrec := ih ((placeRun off g).2.2 + 1) (fun s hs => hwf s (by simp [hs]))
      rw [groupsRun_slots_ne g gs off hge, groupsRun_off_ne g gs off hge]
      refine ⟨?_, ?_, ?_⟩
      · rw [List.pairwise_append]
        refine ⟨?_, hrec.1, ?_⟩
        · rw [List.pairwise_append]
          refine ⟨hg.1, by simp, ?_⟩
          intro a ha b hb
          simp only [List.mem_singleton] at hb
          subst hb
          exact (hg.2.1 a ha).2
        · intro a ha b hb
          have hb2 := hrec.2.1 b hb
          simp only [List.mem_append, List.mem_singleton] at ha
          rcases ha with ha | ha
          · have := (hg.2.1 a ha).2
            omega
          · subst ha; omega
      · intro x hx
        simp only [List.mem_append, List.mem_singleton] at hx
        have hfin := hrec.2.2
        rcases hx with (hx | hx) | hx
        · have hx1 := hg.2.1 x hx
          constructor <;> omega
        · subst hx
          have := hg.2.2
          constructor <;> omega
        · have hx1 := hrec.2.1 x hx
          have h2 := hg.2.2
          constructor <;> omega
      · have := hrec.2.2
        have h2 := hg.2.2
        omega

theorem groupsRun_claim (gs : List (List ImportSpec)) :
    ∀ off, (∀ s ∈ gs.flatten, specPos s ≤ specEnd s) →
      (groupsRun off gs).2.1 = claimSlots off (gs.map (fun g => g.map widthOf)) := by
  induction gs with
  | nil => intro off _; simp [groupsRun, claimSlots]
  | cons g gs ih =>
    intro off hwf
    rcases eq_or_ne g [] with hge | hge
    · subst hge
      rw [groupsRun_cons_nil, ih off (fun s hs => hwf s (by simp [hs]))]
      simp [claimSlots]
    · have hclaim := placeRun_claim g off (fun s hs => hwf s (by simp [hs]))
      obtain ⟨w, ws, hws⟩ : ∃ w ws, g.map widthOf = w :: ws := by
        cases g with
        | nil => exact absurd rfl hge
        | cons a l => exact ⟨widthOf a, l.map widthOf, rfl⟩
      rw [groupsRun_slots_ne g gs off hge]
      simp only [List.map_cons, hws, claimSlots]
      rw [← hws, ← hclaim.1, ← hclaim.2,
        ih ((placeRun off g).2.2 + 1) (fun s hs => hwf s (by simp [hs]))]

theorem groupsRun_head (gs : List (List ImportSpec)) :
    ∀ off, (groupsRun off gs).2.1 ≠ [] → ((groupsRun off gs).2.1).head? = some off := by
  induction gs with
  | nil => intro off h; simp [groupsRun] at h
  | cons g gs ih =>
    intro off h
    rcases eq_or_ne g [] with hge | hge
    · subst hge
      rw [groupsRun_cons_nil] at h ⊢
      exact ih off h
    · cases g with
      | nil => exact absurd rfl hge
      | cons s rest =>
        rw [groupsRun_slots_ne _ gs off hge]
        simp [placeRun]

/-- Extension of an `S2State` by the result of a placement run. -/
def extend2 (st : S2State) (r : List ImportSpec × List Nat × Nat) : S2State :=
  ⟨st.specsRes ++ r.1, st.importLines ++ r.2.1, r.2.2, st.line + r.1.length⟩

theorem ruleSpecLoop_eq (pat : String → Bool) (specs : List ImportSpec) :
    ∀ (mf : ImportSpec → Bool) (st : S2State),
      ruleSpecLoop pat (specs.zip (specs.map mf)) st =
        (specs.map (fun s => mf s || pat s.pathValue),
         extend2 st (placeRun st.startOffset
           (specs.filter (fun s => !(mf s) && pat s.pathValue)))) := by
  induction specs with
  | nil =>
    intro mf st
    simp [ruleSpecLoop, extend2, placeRun]
  | cons s rest ih =>
    intro mf st
    have ihz := ih mf
    simp only [List.map_cons, List.zip_cons_cons, ruleSpecLoop, List.filter_cons]
    by_cases hm : mf s
    · simp only [hm, if_true, Bool.true_or, Bool.not_true, Bool.false_and,
        Bool.false_eq_true, if_false]
      rw [show List.zipWith Prod.mk rest (List.map mf rest)
            = rest.zip (List.map mf rest) from rfl, ihz st]
    · by_cases hp : pat s.pathValue
      · simp only [hm, hp, Bool.false_eq_true, if_false, if_true, Bool.false_or,
          Bool.not_false, Bool.true_and]
        rw [show List.zipWith Prod.mk rest (List.map mf rest)
              = rest.zip (List.map mf rest) from rfl, ihz (place2 st s)]
        cases st with
        | mk res ls so ln =>
          simp only [place2, placeRun, extend2, Prod.mk.injEq, S2State.mk.injEq,
            List.append_assoc, List.singleton_append, List.length_cons]
          refine ⟨trivial, trivial, trivial, trivial, ?_⟩
          omega
      · simp only [hm, hp, Bool.false_eq_true, if_false, Bool.false_or,
          Bool.not_false, Bool.true_and]
        rw [show List.zipWith Prod.mk rest (List.map mf rest)
              = rest.zip (List.map mf rest) from rfl, ihz st]

/-- Extension of an `S2State` by the result of a full rule run (`k` counts the
    unconditional per-rule line increments of the loop epilogue). -/
def extendR (st : S2State) (r : List ImportSpec × List Nat × Nat) (k : Nat) : S2State :=
  ⟨st.specsRes ++ r.1, st.importLines ++ r.2.1, r.2.2, st.line + r.1.length + k⟩

theorem rulesLoop_eq (rules : List (String → Bool)) :
    ∀ (specs : List ImportSpec) (mf : ImportSpec → Bool) (st : S2State),
      (rulesLoop rules specs (specs.map mf) st).2 =
        extendR st (rulesRun st.startOffset rules (specs.filter (fun s => !(mf s))))
          rules.length := by
  induction rules with
  | nil =>
    intro specs mf st
    simp [rulesLoop, rulesRun, extendR]
  | cons r rs ih =>
    intro specs mf st
    have hsel : specs.filter (fun s => !(mf s) && r s.pathValue)
        = (specs.filter (fun s => !(mf s))).filter (fun s => r s.pathValue) := by
      rw [List.filter_filter]
      apply List.filter_congr
      intro x _
      cases mf x <;> cases r x.pathValue <;> rfl
    have hpend : specs.filter (fun s => !(mf s || r s.pathValue))
        = (specs.filter (fun s => !(mf s))).filter (fun s => !(r s.pathValue)) := by
      rw [List.filter_filter]
      apply List.filter_congr
      intro x _
      cases mf x <;> cases r x.pathValue <;> rfl
    simp only [rulesLoop, ruleSpecLoop_eq]
    rw [ih specs (fun s => mf s || r s.pathValue)]
    simp only [rulesRun, hsel, hpend]
    cases st with
    | mk res ls so ln =>
      simp only [extendR, extend2, sealRule, S2State.mk.injEq, List.append_assoc,
        List.singleton_append, List.length_append, List.length_cons]
      refine ⟨trivial, trivial, trivial, ?_⟩
      omega

theorem sortImportSpecsState_eq (f : FileModel) (rules : List (String → Bool))
    (specs : List ImportSpec) (startPos : Nat) :
    sortImportSpecsState f rules specs startPos =
      extendR ⟨[], [], offsetOfPos startPos + 1, lineOfPos f startPos + 1⟩
        (rulesRun (offsetOfPos startPos + 1) rules specs) rules.length := by
  unfold sortImportSpecsState
  have hrep : List.replicate specs.length false
      = specs.map (fun _ => (false : Bool)) := by
    rw [← List.map_const]
    rfl
  rw [hrep, rulesLoop_eq]
  have : specs.filter (fun s => !(false : Bool)) = specs := by
    simp
  rw [this]

theorem rulesRun_map_content (rules : List (String → Bool)) :
    ∀ off pending, ((rulesRun off rules pending).1).map content
      = (v2Groups rules pending).flatten.map content := by
  induction rules with
  | nil => intro off pending; simp [rulesRun, v2Groups]
  | cons r rs ih =>
    intro off pending
    simp [rulesRun, v2Groups, placeRun_map_content, ih]

theorem rulesRun_entries (rules : List (String → Bool)) :
    ∀ off pending, (∀ s ∈ pending, specPos s ≤ specEnd s) →
      List.Forall₂ spanR ((rulesRun off rules pending).1)
        (v2Groups rules pending).flatten := by
  induction rules with
  | nil => intro off pending _; simp [rulesRun, v2Groups]
  | cons r rs ih =>
    intro off pending hwf
    simp only [rulesRun, v2Groups, List.flatten_cons]
    exact List.rel_append
      (placeRun_entries _ off (fun s hs => hwf s (List.mem_of_mem_filter hs)))
      (ih _ _ (fun s hs => hwf s (List.mem_of_mem_filter hs)))

theorem rulesRun_lengths (rules : List (String → Bool)) :
    ∀ off pending, ((rulesRun off rules pending).2.1).length
      = ((rulesRun off rules pending).1).length + rules.length := by
  induction rules with
  | nil => intro off pending; simp [rulesRun]
  | cons r rs ih =>
    intro off pending
    have ha := placeRun_lengths (pending.filter (fun s => r s.pathValue)) off
    simp only [rulesRun, List.length_append, ha.1, ha.2, ih]
    simp
    omega

theorem v2Groups_flatten_perm (rules : List (String → Bool)) :
    ∀ pending, (∀ s ∈ pending, ∃ r ∈ rules, r s.pathValue = true) →
      ((v2Groups rules pending).flatten).Perm pending := by
  induction rules with
  | nil =>
    intro pending hcov
    cases pending with
    | nil => simp [v2Groups]
    | cons s rest =>
      obtain ⟨r, hr, _⟩ := hcov s (by simp)
      simp at hr
  | cons r rs ih =>
    intro pending hcov
    simp only [v2Groups, List.flatten_cons]
    have hrec := ih (pending.filter (fun s => !(r s.pathValue)))
      (by
        intro s hs
        have hmem := List.mem_of_mem_filter hs
        have hflag := List.of_mem_filter hs
        obtain ⟨r2, hr2, hmatch⟩ := hcov s hmem
        rcases List.mem_cons.1 hr2 with h | h
        · subst h
          simp [hmatch] at hflag
        · exact ⟨r2, h, hmatch⟩)
    exact (hrec.append_left (pending.filter (fun s => r s.pathValue))).trans
      (List.filter_append_perm (fun s => r s.pathValue) pending)

theorem emissionGroups_flatten_perm (specs : List ImportSpec) :
    ((emissionGroups specs).flatten).Perm specs := by
  induction specs with
  | nil => simp [emissionGroups]
  | cons s rest ih =>
    have hsplit : ∀ b : Bucket, (s :: rest).filter (fun x => classify x == b)
        = if classify s = b then s :: rest.filter (fun x => classify x == b)
          else rest.filter (fun x => classify x == b) := by
      intro b
      rcases eq_or_ne (classify s) b with h | h
      · simp [List.filter_cons, h]
      · simp [List.filter_cons, h]
    cases hcl : classify s with
    | std =>
      simp only [emissionGroups, hsplit, hcl, List.flatten_cons] at ih ⊢
      simp only [if_true, reduceIte, List.flatten]
      simpa using ih.cons s
    | ext =>
      simp only [emissionGroups, hsplit, hcl, List.flatten_cons] at ih ⊢
      simp only [reduceIte, List.flatten]
      refine List.Perm.trans ?_ (ih.cons s)
      simp
    | k8s =>
      simp only [emissionGroups, hsplit, hcl, List.flatten_cons] at ih ⊢
      simp only [reduceIte, List.flatten]
      refine List.Perm.trans ?_ (ih.cons s)
      simpa [List.append_assoc] using
        (@List.perm_middle ImportSpec s
          ((rest.filter (fun x => classify x == Bucket.std))
            ++ (rest.filter (fun x => classify x == Bucket.ext)))
          ((rest.filter (fun x => classify x == Bucket.k8s))
            ++ (rest.filter (fun x => classify x == Bucket.loc))))
    | loc =>
      simp only [emissionGroups, hsplit, hcl, List.flatten_cons] at ih ⊢
      simp only [reduceIte, List.flatten]
      refine List.Perm.trans ?_ (ih.cons s)
      simpa [List.append_assoc] using
        (@List.perm_middle ImportSpec s
          ((rest.filter (fun x => classify x == Bucket.std))
            ++ (rest.filter (fun x => classify x == Bucket.ext))
            ++ (rest.filter (fun x => classify x == Bucket.k8s)))
          (rest.filter (fun x => classify x == Bucket.loc)))

theorem map_sortGroup_flatten_perm (gs : List (List ImportSpec)) :
    ((gs.map sortGroup).flatten).Perm gs.flatten := by
  induction gs with
  | nil => simp
  | cons g gs ih =>
    simp only [List.map_cons, List.flatten_cons]
    exact (List.perm_insertionSort pathLe g).append ih

theorem placeRun_map_classify (g : List ImportSpec) :
    ∀ off, ((placeRun off g).1).map classify = g.map classify := by
  induction g with
  | nil => intro off; simp [placeRun]
  | cons s rest ih => intro off; simp [placeRun, classify_reposition, ih]

theorem all_classify_of_map_eq {l l2 : List ImportSpec} {b : Bucket}
    (hmap : l.map classify = l2.map classify) (h : ∀ x ∈ l2, classify x = b) :
    ∀ x ∈ l, classify x = b := by
  intro x hx
  have : classify x ∈ l2.map classify := by
    rw [← hmap]
    exact List.mem_map_of_mem classify hx
  obtain ⟨y, hy, hyx⟩ := List.mem_map.1 this
  rw [← hyx]
  exact h y hy

theorem filter_classify_self {l : List ImportSpec} {b : Bucket}
    (h : ∀ x ∈ l, classify x = b) :
    l.filter (fun s => classify s == b) = l :=
  List.filter_eq_self.2 (fun a ha => by rw [h a ha]; simp)

theorem filter_classify_nil (b2 : Bucket) {l : List ImportSpec} {b : Bucket}
    (h : ∀ x ∈ l, classify x = b) (hne : b ≠ b2) :
    l.filter (fun s => classify s == b2) = [] := by
  rw [List.filter_eq_nil_iff]
  intro a ha
  rw [h a ha]
  simpa using hne

theorem mem_filter_classify {l : List ImportSpec} {b : Bucket} :
    ∀ x ∈ l.filter (fun s => classify s == b), classify x = b := by
  intro x hx
  have := List.of_mem_filter hx
  simpa using this

theorem mem_sortGroup_classify {l : List ImportSpec} {b : Bucket}
    (h : ∀ x ∈ l, classify x = b) :
    ∀ x ∈ sortGroup l, classify x = b := by
  intro x hx
  exact h x ((List.perm_insertionSort pathLe l).mem_iff.1 hx)

theorem sortGroup_filter_path (g : List ImportSpec) (p : String) :
    (sortGroup g).filter (fun s => s.pathValue == p)
      = g.filter (fun s => s.pathValue == p) := by
  have hpair : (g.filter (fun s => s.pathValue == p)).Pairwise pathLe := by
    apply List.pairwise_of_forall_mem_list
    intro a ha b hb
    have ha2 : a.pathValue = p := by simpa using List.of_mem_filter ha
    have hb2 : b.pathValue = p := by simpa using List.of_mem_filter hb
    unfold pathLe
    rw [ha2, hb2]
  have hsub : (g.filter (fun s => s.pathValue == p)).Sublist (sortGroup g) :=
    List.sublist_insertionSort hpair (List.filter_sublist g)
  have hsub2 : (g.filter (fun s => s.pathValue == p)).Sublist
      ((sortGroup g).filter (fun s => s.pathValue == p)) := by
    have h0 := List.Sublist.filter (fun s => s.pathValue == p) hsub
    rw [List.filter_filter] at h0
    have hff : (g.filter (fun a => (a.pathValue == p) && (a.pathValue == p)))
        = g.filter (fun s => s.pathValue == p) := by
      apply List.filter_congr
      intro x _
      cases hxp : x.pathValue == p <;> simp [hxp]
    rwa [hff] at h0
  have hlen : ((sortGroup g).filter (fun s => s.pathValue == p)).length
      = (g.filter (fun s => s.pathValue == p)).length :=
    ((List.perm_insertionSort pathLe g).filter (fun s => s.pathValue == p)).length_eq
  exact (hsub2.eq_of_length hlen.symm).symm

theorem chainLtBool_iff (l : List Nat) :
    chainLtBool l = true ↔ l.Pairwise (fun a b => a < b) := by
  rw [← List.chain'_iff_pairwise]
  induction l with
  | nil => simp [chainLtBool]
  | cons a l ih =>
    cases l with
    | nil => simp [chainLtBool]
    | cons b m =>
      rw [List.chain'_cons, ← ih]
      simp [chainLtBool]

theorem setLines_of_valid (f : FileModel) (ls : List Nat)
    (h1 : ls.Pairwise (fun a b => a < b)) (h2 : ∀ o ∈ ls, o < f.size) :
    setLines f ls = { f with lines := ls } := by
  unfold setLines
  rw [if_pos]
  rw [Bool.and_eq_true, (chainLtBool_iff ls)]
  exact ⟨h1, by simpa [List.all_eq_true] using h2⟩

theorem map_lineStart_range (f : FileModel) :
    ∀ (m k : Nat), k + m ≤ f.lines.length →
      (List.range' (k + 1) m).map (fun i => lineStartOffset f i)
        = (f.lines.drop k).take m := by
  intro m
  induction m with
  | zero => intro k _; simp
  | succ m ih =>
    intro k hk
    have hklt : k < f.lines.length := by omega
    rw [List.range'_succ, List.map_cons, List.drop_eq_getElem_cons hklt]
    have harg : lineStartOffset f (k + 1) = f.lines[k] := by
      simp only [lineStartOffset, Nat.add_sub_cancel]
      rw [List.getD_eq_getElem?_getD, List.getElem?_eq_getElem hklt]
      rfl
    rw [harg, List.take_succ_cons]
    have := ih (k + 1) (by omega)
    rw [show k + 1 + 1 = (k + 1) + 1 from rfl] at this
    rw [this]

theorem map_lineStart_range_one (f : FileModel) (n : Nat) (h : n ≤ f.lines.length) :
    (List.range' 1 n).map (fun i => lineStartOffset f i) = f.lines.take n := by
  have := map_lineStart_range f n 0 (by omega)
  simpa using this

theorem map_lineStart_range_drop (f : FileModel) (k : Nat) (h : k ≤ f.lines.length) :
    (List.range' (k + 1) (f.lines.length - k)).map (fun i => lineStartOffset f i)
      = f.lines.drop k := by
  rw [map_lineStart_range f (f.lines.length - k) k (by omega)]
  apply List.take_of_length_le
  simp

theorem takeWhile_all_append {p : Nat → Bool} (l1 l2 : List Nat)
    (h : ∀ x ∈ l1, p x = true) :
    (l1 ++ l2).takeWhile p = l1 ++ l2.takeWhile p := by
  induction l1 with
  | nil => simp
  | cons a l ih =>
    have ha : p a = true := h a (by simp)
    simp only [List.cons_append, List.takeWhile_cons, ha, if_true]
    rw [ih (fun x hx => h x (by simp [hx]))]

theorem takeWhile_cons_false {p : Nat → Bool} {a : Nat} (l : List Nat)
    (h : p a = false) : (a :: l).takeWhile p = [] := by
  simp [List.takeWhile_cons, h]

theorem take_length_takeWhile (l : List Nat) (p : Nat → Bool) :
    l.take (l.takeWhile p).length = l.takeWhile p := by
  induction l with
  | nil => simp
  | cons a l ih =>
    cases ha : p a with
    | true => simp [List.takeWhile_cons, ha, ih]
    | false => simp [List.takeWhile_cons, ha]

theorem takeWhile_getD_false (l : List Nat) (p : Nat → Bool)
    (h : (l.takeWhile p).length < l.length) :
    p (l.getD (l.takeWhile p).length 0) = false := by
  induction l with
  | nil => simp at h
  | cons a l ih =>
    cases ha : p a with
    | true =>
      simp only [List.takeWhile_cons, ha, if_true, List.length_cons] at h ⊢
      simpa using ih (by omega)
    | false =>
      simp [List.takeWhile_cons, ha]

theorem mem_take_takeWhile_le (l : List Nat) (p : Nat → Bool) :
    ∀ x ∈ l.take (l.takeWhile p).length, p x = true := by
  rw [take_length_takeWhile]
  exact fun x hx => List.mem_takeWhile_imp hx

/-- Offset after one group of the `sortDecl` group loop. -/
def nextOff (off : Nat) (g : List ImportSpec) : Nat :=
  if g.length ≠ 0 then (placeRun off g).2.2 + 1 else (placeRun off g).2.2

theorem groupsRun_ents_cons (g : List ImportSpec) (gs : List (List ImportSpec)) (off : Nat) :
    (groupsRun off (g :: gs)).1 = (placeRun off g).1 ++ (groupsRun (nextOff off g) gs).1 := by
  rcases eq_or_ne g [] with h | h
  · subst h
    rw [groupsRun_cons_nil]
    simp [nextOff, placeRun]
  · have hlen : g.length ≠ 0 := by simpa using h
    rw [groupsRun_ents_ne g gs off h]
    simp [nextOff, hlen]

theorem sortDecl_out_blocks (f : FileModel) (specs : List ImportSpec) (start : Nat) :
    ∃ o1 o2 o3 o4 : Nat,
      (sortDeclState f specs start).orderedImports
        = (placeRun o1 (sortGroup (specs.filter (fun s => classify s == Bucket.std)))).1
          ++ ((placeRun o2 (sortGroup (specs.filter (fun s => classify s == Bucket.ext)))).1
          ++ ((placeRun o3 (sortGroup (specs.filter (fun s => classify s == Bucket.k8s)))).1
          ++ (placeRun o4 (sortGroup (specs.filter (fun s => classify s == Bucket.loc)))).1)) := by
  rw [sortDeclState_eq]
  simp only [emissionGroups, List.map_cons, List.map_nil]
  rw [groupsRun_ents_cons, groupsRun_ents_cons, groupsRun_ents_cons, groupsRun_ents_cons]
  use lineStartOffset f (lineOfPos f start + 1)
  use nextOff (lineStartOffset f (lineOfPos f start + 1))
        (sortGroup (specs.filter (fun s => classify s == Bucket.std)))
  use nextOff (nextOff (lineStartOffset f (lineOfPos f start + 1))
        (sortGroup (specs.filter (fun s => classify s == Bucket.std))))
        (sortGroup (specs.filter (fun s => classify s == Bucket.ext)))
  use nextOff (nextOff (nextOff (lineStartOffset f (lineOfPos f start + 1))
        (sortGroup (specs.filter (fun s => classify s == Bucket.std))))
        (sortGroup (specs.filter (fun s => classify s == Bucket.ext))))
        (sortGroup (specs.filter (fun s => classify s == Bucket.k8s)))
  simp [groupsRun]

theorem block_all_classify (specs : List ImportSpec) (b : Bucket) (o : Nat) :
    ∀ x ∈ (placeRun o (sortGroup (specs.filter (fun s => classify s == b)))).1,
      classify x = b :=
  all_classify_of_map_eq (placeRun_map_classify _ o)
    (mem_sortGroup_classify mem_filter_classify)

theorem sortDecl_out_filter (f : FileModel) (specs : List ImportSpec) (start : Nat)
    (b : Bucket) :
    ∃ o : Nat,
      ((sortDeclState f specs start).orderedImports).filter (fun s => classify s == b)
        = (placeRun o (sortGroup (specs.filter (fun s => classify s == b)))).1 := by
  obtain ⟨o1, o2, o3, o4, hblocks⟩ := sortDecl_out_blocks f specs start
  have h1 := block_all_classify specs Bucket.std o1
  have h2 := block_all_classify specs Bucket.ext o2
  have h3 := block_all_classify specs Bucket.k8s o3
  have h4 := block_all_classify specs Bucket.loc o4
  rw [hblocks]
  cases b with
  | std =>
    exact ⟨o1, by
      simp only [List.filter_append, filter_classify_self h1,
        filter_classify_nil Bucket.std h2 (by decide),
        filter_classify_nil Bucket.std h3 (by decide),
        filter_classify_nil Bucket.std h4 (by decide), List.append_nil]⟩
  | ext =>
    exact ⟨o2, by
      simp only [List.filter_append, filter_classify_self h2,
        filter_classify_nil Bucket.ext h1 (by decide),
        filter_classify_nil Bucket.ext h3 (by decide),
        filter_classify_nil Bucket.ext h4 (by decide), List.append_nil, List.nil_append]⟩
  | k8s =>
    exact ⟨o3, by
      simp only [List.filter_append, filter_classify_self h3,
        filter_classify_nil Bucket.k8s h1 (by decide),
        filter_classify_nil Bucket.k8s h2 (by decide),
        filter_classify_nil Bucket.k8s h4 (by decide), List.append_nil, List.nil_append]⟩
  | loc =>
    exact ⟨o4, by
      simp only [List.filter_append, filter_classify_self h4,
        filter_classify_nil Bucket.loc h1 (by decide),
        filter_classify_nil Bucket.loc h2 (by decide),
        filter_classify_nil Bucket.loc h3 (by decide), List.nil_append]⟩

theorem content_path_comp (s : ImportSpec) (p : String) :
    ((content s).path == p) = (s.pathValue == p) := rfl

theorem filter_path_map_content (l : List ImportSpec) (p : String) :
    (l.map content).filter (fun c => c.path == p)
      = (l.filter (fun s => s.pathValue == p)).map content := by
  rw [List.filter_map]
  congr 1

/-- C4: within every output group of the fixed-bucket transformation, entries
    are ordered by ascending lexicographic comparison of the quoted path string
    (quotes included), and entries with identical path strings keep their
    original relative order (the sort is stable). -/
theorem c4_within_group_order (f : FileModel) (specs : List ImportSpec) (start : Nat)
    (b : Bucket) (p : String) :
    ((((sortDeclState f specs start).orderedImports.filter
        (fun s => classify s == b)).map (fun s => s.pathValue)).Pairwise
          (fun a c => a ≤ c))
    ∧ ((((sortDeclState f specs start).orderedImports.filter
          (fun s => classify s == b)).map content).filter (fun c => c.path == p)
        = ((specs.filter (fun s => classify s == b)).map content).filter
            (fun c => c.path == p)) := by
  obtain ⟨o, ho⟩ := sortDecl_out_filter f specs start b
  rw [ho]
  constructor
  · rw [placeRun_map_path, List.pairwise_map]
    exact List.sorted_insertionSort pathLe _
  · rw [placeRun_map_content, filter_path_map_content, filter_path_map_content,
      sortGroup_filter_path]

theorem classify_cases (s : ImportSpec) :
    (classify s = Bucket.std
      ↔ strContains (firstSegment (stripQuotes s.pathValue)) (".") = false)
    ∧ (classify s = Bucket.loc
      ↔ (strContains (firstSegment (stripQuotes s.pathValue)) (".") = true
        ∧ strStartsWith (stripQuotes s.pathValue) ("k8s.io/kubernetes") = true))
    ∧ (classify s = Bucket.k8s
      ↔ (strContains (firstSegment (stripQuotes s.pathValue)) (".") = true
        ∧ strStartsWith (stripQuotes s.pathValue) ("k8s.io/kubernetes") = false
        ∧ strContains (firstSegment (stripQuotes s.pathValue)) ("k8s.io") = true))
    ∧ (classify s = Bucket.ext
      ↔ (strContains (firstSegment (stripQuotes s.pathValue)) (".") = true
        ∧ strStartsWith (stripQuotes s.pathValue) ("k8s.io/kubernetes") = false
        ∧ strContains (firstSegment (stripQuotes s.pathValue)) ("k8s.io") = false)) := by
  unfold classify
  cases hdot : strContains (firstSegment (stripQuotes s.pathValue)) (".") <;>
    cases hpre : strStartsWith (stripQuotes s.pathValue) ("k8s.io/kubernetes") <;>
      cases hk : strContains (firstSegment (stripQuotes s.pathValue)) ("k8s.io") <;>
        simp [hdot, hpre, hk]

theorem sortDeclState_out_content (f : FileModel) (specs : List ImportSpec) (start : Nat) :
    ((sortDeclState f specs start).orderedImports).map content
      = (((emissionGroups specs).map sortGroup).flatten).map content := by
  rw [sortDeclState_eq]
  exact groupsRun_map_content _ _

theorem sortImportSpecsState_out_content (g : FileModel) (rules : List (String → Bool))
    (specs2 : List ImportSpec) (startPos : Nat) :
    ((sortImportSpecsState g rules specs2 startPos).specsRes).map content
      = ((v2Groups rules specs2).flatten).map content := by
  rw [sortImportSpecsState_eq]
  simp only [extendR, List.nil_append]
  exact rulesRun_map_content _ _ _

/-- C1 (amended): in the fixed-bucket variant the multiset of entries across the
    output groups always equals the input multiset and each entry goes to the
    first matching rule of the classification chain; in the configurable variant
    the same holds provided every entry matches some rule, each entry being
    taken by the first rule that matches it (the grouping equals the
    first-match-wins grouping `v2Groups`). -/
theorem c1_coverage
    (f : FileModel) (specs : List ImportSpec) (start : Nat)
    (g : FileModel) (rules : List (String → Bool)) (specs2 : List ImportSpec)
    (startPos : Nat)
    (hcov : ∀ s ∈ specs2, ∃ r ∈ rules, r s.pathValue = true) :
    ((((sortDeclState f specs start).orderedImports).map content).Perm
        (specs.map content))
    ∧ (((sortDeclState f specs start).orderedImports).map content
        = (((emissionGroups specs).map sortGroup).flatten).map content)
    ∧ (∀ s : ImportSpec,
        (classify s = Bucket.std
          ↔ strContains (firstSegment (stripQuotes s.pathValue)) (".") = false)
        ∧ (classify s = Bucket.loc
          ↔ (strContains (firstSegment (stripQuotes s.pathValue)) (".") = true
            ∧ strStartsWith (stripQuotes s.pathValue) ("k8s.io/kubernetes") = true))
        ∧ (classify s = Bucket.k8s
          ↔ (strContains (firstSegment (stripQuotes s.pathValue)) (".") = true
            ∧ strStartsWith (stripQuotes s.pathValue) ("k8s.io/kubernetes") = false
            ∧ strContains (firstSegment (stripQuotes s.pathValue)) ("k8s.io") = true))
        ∧ (classify s = Bucket.ext
          ↔ (strContains (firstSegment (stripQuotes s.pathValue)) (".") = true
            ∧ strStartsWith (stripQuotes s.pathValue) ("k8s.io/kubernetes") = false
            ∧ strContains (firstSegment (stripQuotes s.pathValue)) ("k8s.io") = false)))
    ∧ ((((sortImportSpecsState g rules specs2 startPos).specsRes).map content).Perm
        (specs2.map content))
    ∧ (((sortImportSpecsState g rules specs2 startPos).specsRes).map content
        = ((v2Groups rules specs2).flatten).map content) := by
  refine ⟨?_, sortDeclState_out_content f specs start, classify_cases,
    ?_, sortImportSpecsState_out_content g rules specs2 startPos⟩
  · rw [sortDeclState_out_content]
    exact ((map_sortGroup_flatten_perm _).trans (emissionGroups_flatten_perm specs)).map
      content
  · rw [sortImportSpecsState_out_content]
    exact (v2Groups_flatten_perm rules specs2 hcov).map content

/-- C1 witness: the coverage theorem applied to a concrete two-entry block in
    each variant, with the coverage hypothesis discharged by evaluation. -/
theorem c1_coverage_witness :
    (((sortImportSpecsState ⟨[0, 13], 100⟩ [stdlibPat, catchAllPat]
        [⟨none, "\"os\"", 22, 0, ""⟩, ⟨none, "\"fmt\"", 30, 0, ""⟩] 14).specsRes).map
          content).Perm
      (([⟨none, "\"os\"", 22, 0, ""⟩, ⟨none, "\"fmt\"", 30, 0, ""⟩] :
          List ImportSpec).map content) :=
  (c1_coverage ⟨[0, 13, 22, 29, 38, 40], 50⟩
    [⟨none, "\"fmt\"", 24, 0, ""⟩, ⟨none, "\"a.b/c\"", 31, 0, ""⟩] 14
    ⟨[0, 13], 100⟩ [stdlibPat, catchAllPat]
    [⟨none, "\"os\"", 22, 0, ""⟩, ⟨none, "\"fmt\"", 30, 0, ""⟩] 14
    (by decide)).2.2.2.1

/-- C1 counterexample: in the configurable variant, a raw-string import path
    matches no rule (not even the catch-all, which requires double quotes) and
    is silently dropped, so the output multiset differs from the input one. -/
theorem c1_counterexample :
    ¬ ((((sortImportSpecsState ⟨[0, 13], 100⟩ [stdlibPat, catchAllPat]
        [⟨none, "`os`", 22, 0, ""⟩, ⟨none, "\"fmt\"", 30, 0, ""⟩] 14).specsRes).map
          content).Perm
      (([⟨none, "`os`", 22, 0, ""⟩, ⟨none, "\"fmt\"", 30, 0, ""⟩] :
          List ImportSpec).map content)) := by
  decide

theorem mem_sorted_groups (specs : List ImportSpec) :
    ∀ x ∈ ((emissionGroups specs).map sortGroup).flatten, x ∈ specs := by
  intro x hx
  exact ((map_sortGroup_flatten_perm _).trans (emissionGroups_flatten_perm specs)).mem_iff.1
    hx

/-- C2 (amended): in the fixed-bucket variant the recorded line slots follow the
    claimed discipline exactly — only non-empty groups contribute, each as its
    entry slots followed by exactly one separator slot, so no slot precedes the
    first emitted group; in the configurable variant every rule contributes one
    separator slot regardless of whether its group is empty, so the slot count
    is the entry count plus the rule count. -/
theorem c2_blank_line_slots
    (f : FileModel) (specs : List ImportSpec) (start : Nat)
    (g : FileModel) (rules : List (String → Bool)) (specs2 : List ImportSpec)
    (startPos : Nat)
    (hwf : ∀ s ∈ specs, specPos s ≤ specEnd s) :
    ((sortDeclState f specs start).impLines
      = claimSlots (lineStartOffset f (lineOfPos f start + 1))
          (((emissionGroups specs).map sortGroup).map (fun g2 => g2.map widthOf)))
    ∧ (((sortImportSpecsState g rules specs2 startPos).importLines).length
        = ((sortImportSpecsState g rules specs2 startPos).specsRes).length
            + rules.length) := by
  constructor
  · rw [sortDeclState_eq]
    exact groupsRun_claim _ _ (fun s hs => hwf s (mem_sorted_groups specs s hs))
  · rw [sortImportSpecsState_eq]
    simp only [extendR, List.nil_append]
    exact rulesRun_lengths rules _ specs2

/-- C2 witness: the fixed-bucket slot discipline evaluated on a concrete
    two-entry block. -/
theorem c2_blank_line_slots_witness :
    (sortDeclState ⟨[0, 13, 22, 29, 38, 40], 50⟩
        [⟨none, "\"fmt\"", 24, 0, ""⟩, ⟨none, "\"a.b/c\"", 31, 0, ""⟩] 14).impLines
      = claimSlots
          (lineStartOffset ⟨[0, 13, 22, 29, 38, 40], 50⟩
            (lineOfPos ⟨[0, 13, 22, 29, 38, 40], 50⟩ 14 + 1))
          (((emissionGroups
              [⟨none, "\"fmt\"", 24, 0, ""⟩, ⟨none, "\"a.b/c\"", 31, 0, ""⟩]).map
                sortGroup).map (fun g2 => g2.map widthOf)) :=
  (c2_blank_line_slots ⟨[0, 13, 22, 29, 38, 40], 50⟩
    [⟨none, "\"fmt\"", 24, 0, ""⟩, ⟨none, "\"a.b/c\"", 31, 0, ""⟩] 14
    ⟨[0, 13], 200⟩ [stdlibPat, catchAllPat] [] 14 (by decide)).1

/-- C2 counterexample: in the configurable variant, a block whose entries all
    miss the first (standard-library) rule records a slot for that empty rule
    BEFORE the first entry slot, so the recorded slots differ from the claimed
    discipline (under which no slot precedes the first emitted group and empty
    groups contribute nothing). -/
theorem c2_counterexample :
    ((sortImportSpecsState ⟨[0, 13], 200⟩ [stdlibPat, catchAllPat]
        [⟨none, "\"a.b/c\"", 30, 0, ""⟩, ⟨none, "\"a.b/d\"", 40, 0, ""⟩] 14).importLines
      = [14, 15, 23, 31])
    ∧ (claimSlots 14 ((v2Groups [stdlibPat, catchAllPat]
        [⟨none, "\"a.b/c\"", 30, 0, ""⟩, ⟨none, "\"a.b/d\"", 40, 0, ""⟩]).map
          (fun g2 => g2.map widthOf))
      = [14, 22, 30])
    ∧ (sortImportSpecsState ⟨[0, 13], 200⟩ [stdlibPat, catchAllPat]
        [⟨none, "\"a.b/c\"", 30, 0, ""⟩, ⟨none, "\"a.b/d\"", 40, 0, ""⟩] 14).importLines
      ≠ claimSlots 14 ((v2Groups [stdlibPat, catchAllPat]
        [⟨none, "\"a.b/c\"", 30, 0, ""⟩, ⟨none, "\"a.b/d\"", 40, 0, ""⟩]).map
          (fun g2 => g2.map widthOf)) := by
  refine ⟨by decide, by decide, by decide⟩

/-- C5: every emitted entry keeps its content (path literal, alias presence,
    comment) and its span width — the rewritten end offset is the rewritten
    start offset plus the original end minus the original start — in both
    variants (`spanR` relates each output entry to its source entry). -/
theorem c5_span_preservation
    (f : FileModel) (specs : List ImportSpec) (start : Nat)
    (g : FileModel) (rules : List (String → Bool)) (specs2 : List ImportSpec)
    (startPos : Nat)
    (hwf : ∀ s ∈ specs, specPos s ≤ specEnd s)
    (hwf2 : ∀ s ∈ specs2, specPos s ≤ specEnd s) :
    List.Forall₂ spanR ((sortDeclState f specs start).orderedImports)
        (((emissionGroups specs).map sortGroup).flatten)
    ∧ List.Forall₂ spanR ((sortImportSpecsState g rules specs2 startPos).specsRes)
        ((v2Groups rules specs2).flatten) := by
  constructor
  · rw [sortDeclState_eq]
    exact groupsRun_entries _ _ (fun s hs => hwf s (mem_sorted_groups specs s hs))
  · rw [sortImportSpecsState_eq]
    simp only [extendR, List.nil_append]
    exact rulesRun_entries rules _ specs2 hwf2

/-- C5 witness: span preservation evaluated on a concrete block in the
    fixed-bucket variant. -/
theorem c5_span_preservation_witness :
    List.Forall₂ spanR
      ((sortDeclState ⟨[0, 13, 22, 29, 38, 40], 50⟩
          [⟨none, "\"fmt\"", 24, 0, ""⟩, ⟨none, "\"a.b/c\"", 31, 0, ""⟩] 14).orderedImports)
      (((emissionGroups
          [⟨none, "\"fmt\"", 24, 0, ""⟩, ⟨none, "\"a.b/c\"", 31, 0, ""⟩]).map
            sortGroup).flatten) :=
  (c5_span_preservation ⟨[0, 13, 22, 29, 38, 40], 50⟩
    [⟨none, "\"fmt\"", 24, 0, ""⟩, ⟨none, "\"a.b/c\"", 31, 0, ""⟩] 14
    ⟨[0, 13], 100⟩ [stdlibPat, catchAllPat] [] 14 (by decide) (by decide)).1

/-- C8: at a concrete input whose first entry (a raw-string path literal)
    matches no rule, the configurable classifier silently DROPS the entry — the
    returned spec list has one entry where the input had two, and no error of
    any kind is produced (the function is total and returns normally). -/
theorem c8_unmatched_entry_dropped :
    (((sortImportSpecsState ⟨[0, 13], 100⟩ [stdlibPat, catchAllPat]
        [⟨none, "`fmt`", 22, 0, ""⟩, ⟨none, "\"os\"", 30, 0, ""⟩] 14).specsRes).map
          content
      = [⟨"\"os\"", false, ""⟩])
    ∧ (([⟨none, "`fmt`", 22, 0, ""⟩, ⟨none, "\"os\"", 30, 0, ""⟩] :
        List ImportSpec).length = 2) := by
  refine ⟨by decide, by decide⟩

theorem strMk_data (s : String) : String.mk s.data = s := by
  cases s
  rfl

theorem splitOnCharList_no_sep (sep : Char) (cs : List Char)
    (h : ∀ c ∈ cs, c ≠ sep) : splitOnCharList sep cs = [cs] := by
  induction cs with
  | nil => rfl
  | cons c cs ih =>
    have hc : c ≠ sep := h c (by simp)
    rw [splitOnCharList, ih (fun x hx => h x (by simp [hx]))]
    simp [hc]

/-- C7: `initRules` compiles each pattern with `p, _ := regexp.Compile(r)`,
    DISCARDING the error: an uncompilable custom pattern is neither reported
    nor excluded — it is appended as a nil matcher, and the nil matcher first
    fails (a nil-pointer panic, modelled as `none`) when a file is transformed. -/
theorem c7_bad_pattern_kept
    (compile : String → Option (String → Bool)) (r0 : String)
    (hbad : compile r0 = none) (hne : r0 ≠ "")
    (hns : r0.data.all (fun c => c ≠ ' ') = true) :
    initRules compile r0 = [compile stdlibPatStr, none, compile catchAllPatStr]
    ∧ none ∈ initRules compile r0
    ∧ (initRules compile r0).length = 3
    ∧ (∀ p, matchOpt none p = none) := by
  have hsplit : splitSpaces r0 = [r0] := by
    unfold splitSpaces
    rw [splitOnCharList_no_sep ' ' r0.data (by simpa [List.all_eq_true] using hns)]
    simp [strMk_data]
  have hmain : initRules compile r0 = [compile stdlibPatStr, none, compile catchAllPatStr] := by
    unfold initRules
    rw [if_pos hne, hsplit]
    simp [hbad]
  refine ⟨hmain, ?_, ?_, fun p => rfl⟩
  · rw [hmain]
    simp
  · rw [hmain]
    rfl

/-- C7 witness: a concrete compilation function failing on the pattern string
    of `-r "("` shows the nil rule silently retained. -/
theorem c7_bad_pattern_kept_witness :
    none ∈ initRules
      (fun s => if s = ("(") then none else some (fun _ => true)) ("(") :=
  (c7_bad_pattern_kept (fun s => if s = ("(") then none else some (fun _ => true))
    ("(") (by simp) (by decide) (by decide)).2.1

theorem sortImportsWith_cons_trivial
    (t : FileModel → List ImportSpec → Nat → Nat → List ImportSpec × FileModel)
    (f : FileModel) (lp : Bool) (specs : List ImportSpec) (pos endP : Nat)
    (ds : List Decl) (h : lp = false ∨ specs.length ≤ 1) :
    sortImportsWith t f (Decl.importGen lp specs pos endP :: ds)
      = ((sortImportsWith t f ds).1,
         Decl.importGen lp specs pos endP :: (sortImportsWith t f ds).2) := by
  simp [sortImportsWith, h]

theorem sortImportsWith_cons_block
    (t : FileModel → List ImportSpec → Nat → Nat → List ImportSpec × FileModel)
    (f : FileModel) (lp : Bool) (specs : List ImportSpec) (pos endP : Nat)
    (ds : List Decl) (h : ¬(lp = false ∨ specs.length ≤ 1)) :
    sortImportsWith t f (Decl.importGen lp specs pos endP :: ds)
      = ((sortImportsWith t (t f specs pos endP).2 ds).1,
         Decl.importGen lp (t f specs pos endP).1 pos endP
           :: (sortImportsWith t (t f specs pos endP).2 ds).2) := by
  simp [sortImportsWith, h]

/-- A declaration the driver skips untouched: an import declaration that is not
    a parenthesized block (`Lparen` invalid) or has at most one entry. -/
def trivialImport : Decl → Prop
  | Decl.importGen lp specs _ _ => lp = false ∨ specs.length ≤ 1
  | Decl.other => False

/-- C6: the driver preserves the declaration list length, returns every
    non-block or single-entry import declaration exactly as parsed (same spec
    list and spans), and when every declaration up to the end is either such a
    trivial import or a non-import declaration, the whole file — line table
    included — comes back exactly as parsed. -/
theorem c6_trivial_untouched
    (t : FileModel → List ImportSpec → Nat → Nat → List ImportSpec × FileModel)
    (f : FileModel) (ds : List Decl) :
    (((sortImportsWith t f ds).2).length = ds.length)
    ∧ (∀ i, i < ds.length → trivialImport (ds.getD i Decl.other) →
        ((sortImportsWith t f ds).2).getD i Decl.other = ds.getD i Decl.other)
    ∧ ((∀ d ∈ ds, d = Decl.other ∨ trivialImport d) →
        sortImportsWith t f ds = (f, ds)) := by
  induction ds generalizing f with
  | nil =>
    refine ⟨rfl, ?_, fun _ => rfl⟩
    intro i hi
    simp at hi
  | cons d ds ih =>
    cases d with
    | other =>
      refine ⟨rfl, ?_, fun _ => rfl⟩
      intro i _ _
      rfl
    | importGen lp specs pos endP =>
      by_cases h : lp = false ∨ specs.length ≤ 1
      · have hih := ih f
        simp only [sortImportsWith, if_pos h]
        refine ⟨by simpa using hih.1, ?_, ?_⟩
        · intro i hi htriv
          cases i with
          | zero => rfl
          | succ j =>
            simp only [List.getD_cons_succ] at htriv ⊢
            exact hih.2.1 j (by simpa using hi) htriv
        · intro hall
          have := hih.2.2 (fun x hx => hall x (by simp [hx]))
          rw [this]
      · have hih := ih (t f specs pos endP).2
        simp only [sortImportsWith, if_neg h]
        refine ⟨by simpa using hih.1, ?_, ?_⟩
        · intro i hi htriv
          cases i with
          | zero =>
            exact absurd htriv h
          | succ j =>
            simp only [List.getD_cons_succ] at htriv ⊢
            exact hih.2.1 j (by simpa using hi) htriv
        · intro hall
          have hd := hall (Decl.importGen lp specs pos endP) (by simp)
          rcases hd with hd | hd
          · simp at hd
          · exact absurd hd h

/-- C6 witness: the driver applied to a file whose only import declaration is a
    single-entry block leaves everything untouched. -/
theorem c6_trivial_untouched_witness :
    sortImportsWith sortDecl ⟨[0, 13, 22, 29], 30⟩
        [Decl.importGen true [⟨none, "\"fmt\"", 24, 0, ""⟩] 14 29, Decl.other]
      = (⟨[0, 13, 22, 29], 30⟩,
         [Decl.importGen true [⟨none, "\"fmt\"", 24, 0, ""⟩] 14 29, Decl.other]) :=
  (c6_trivial_untouched sortDecl ⟨[0, 13, 22, 29], 30⟩
    [Decl.importGen true [⟨none, "\"fmt\"", 24, 0, ""⟩] 14 29, Decl.other]).2.2
    (by
      intro d hd
      rcases List.mem_cons.1 hd with h | h
      · subst h
        right
        right
        decide
      · simp only [List.mem_singleton] at h
        subst h
        left
        rfl)

/-- C10: in both variants the driver scans declarations from the top and stops
    at the first non-import declaration; every declaration from that point on —
    including any import declaration after it — is returned untouched. -/
theorem c10_stops_at_non_import
    (t : FileModel → List ImportSpec → Nat → Nat → List ImportSpec × FileModel)
    (f : FileModel) (pre post : List Decl) :
    ∃ f2 pre2,
      sortImportsWith t f (pre ++ Decl.other :: post)
        = (f2, pre2 ++ Decl.other :: post)
      ∧ pre2.length = pre.length := by
  induction pre generalizing f with
  | nil => exact ⟨f, [], rfl, rfl⟩
  | cons d pre ih =>
    cases d with
    | other =>
      refine ⟨f, Decl.other :: pre, ?_, rfl⟩
      simp [sortImportsWith]
    | importGen lp specs pos endP =>
      by_cases h : lp = false ∨ specs.length ≤ 1
      · obtain ⟨f2, pre2, heq, hlen⟩ := ih f
        refine ⟨f2, Decl.importGen lp specs pos endP :: pre2, ?_, by simp [hlen]⟩
        rw [List.cons_append, sortImportsWith_cons_trivial t f lp specs pos endP _ h, heq]
        simp
      · obtain ⟨f2, pre2, heq, hlen⟩ := ih (t f specs pos endP).2
        refine ⟨f2, Decl.importGen lp (t f specs pos endP).1 pos endP :: pre2, ?_,
          by simp [hlen]⟩
        rw [List.cons_append, sortImportsWith_cons_block t f lp specs pos endP _ h, heq]
        simp

theorem lineOfPos_le (f : FileModel) (p : Nat) : lineOfPos f p ≤ f.lines.length :=
  (List.takeWhile_sublist _).length_le

theorem sortDeclLines_decomp (f : FileModel) (specs : List ImportSpec) (start endP : Nat) :
    sortDeclLines f specs start endP
      = f.lines.take (lineOfPos f start) ++ (sortDeclState f specs start).impLines
        ++ f.lines.drop (lineOfPos f endP) := by
  unfold sortDeclLines lineCount
  rw [map_lineStart_range_one f _ (lineOfPos_le f start),
      map_lineStart_range_drop f _ (lineOfPos_le f endP)]

theorem getD_mem_drop (l : List Nat) (k : Nat) (h : k < l.length) :
    l.getD k 0 ∈ l.drop k := by
  have h1 : l.getD k 0 = l[k] := by
    rw [List.getD_eq_getElem?_getD, List.getElem?_eq_getElem h]
    rfl
  rw [h1, List.drop_eq_getElem_cons h]
  exact List.mem_cons_self _ _

theorem tableFacts (f : FileModel) (specs : List ImportSpec) (start endP : Nat)
    (hpw : f.lines.Pairwise (fun a b => a < b))
    (hsz : ∀ o ∈ f.lines, o < f.size)
    (hwf : ∀ s ∈ specs, specPos s ≤ specEnd s)
    (hstart : lineOfPos f start < f.lines.length)
    (hse : lineOfPos f start ≤ lineOfPos f endP)
    (hend : lineOfPos f endP < f.lines.length)
    (hfit : (sortDeclState f specs start).offset
        ≤ f.lines.getD (lineOfPos f endP) 0) :
    ((sortDeclLines f specs start endP).Pairwise (fun a b => a < b))
    ∧ ((sortDeclLines f specs start endP).length
        = lineOfPos f start
          + (specs.length
             + (((emissionGroups specs).map sortGroup).filter
                  (fun g2 => !g2.isEmpty)).length)
          + (f.lines.length - lineOfPos f endP))
    ∧ ((sortDecl f specs start endP).2
        = { f with lines := sortDeclLines f specs start endP })
    ∧ (∀ o ∈ sortDeclLines f specs start endP, o < f.size) := by
  have hwfflat : ∀ s ∈ ((emissionGroups specs).map sortGroup).flatten,
      specPos s ≤ specEnd s :=
    fun s hs => hwf s (mem_sorted_groups specs s hs)
  have hoff0 : lineStartOffset f (lineOfPos f start + 1)
      = f.lines.getD (lineOfPos f start) 0 := by
    simp [lineStartOffset]
  have hImp : (sortDeclState f specs start).impLines
      = (groupsRun (lineStartOffset f (lineOfPos f start + 1))
          ((emissionGroups specs).map sortGroup)).2.1 := by
    rw [sortDeclState_eq]
  have hOff : (sortDeclState f specs start).offset
      = (groupsRun (lineStartOffset f (lineOfPos f start + 1))
          ((emissionGroups specs).map sortGroup)).2.2 := by
    rw [sortDeclState_eq]
  have hslots := groupsRun_slots ((emissionGroups specs).map sortGroup)
    (lineStartOffset f (lineOfPos f start + 1)) hwfflat
  rw [hOff] at hfit
  have hLmem : f.lines.getD (lineOfPos f start) 0 ∈ f.lines.drop (lineOfPos f start) :=
    getD_mem_drop _ _ hstart
  have hEmem : f.lines.getD (lineOfPos f endP) 0 ∈ f.lines.drop (lineOfPos f endP) :=
    getD_mem_drop _ _ hend
  have hcrossL : ∀ a ∈ f.lines.take (lineOfPos f start),
      a < f.lines.getD (lineOfPos f start) 0 := by
    intro a ha
    have h0 := hpw
    rw [← List.take_append_drop (lineOfPos f start) f.lines] at h0
    exact (List.pairwise_append.1 h0).2.2 a ha _ hLmem
  have hdropE : (f.lines.drop (lineOfPos f endP)).Pairwise (fun a b => a < b) :=
    List.Pairwise.sublist (List.drop_sublist _ _) hpw
  have hcrossE : ∀ a ∈ f.lines.take (lineOfPos f start),
      ∀ b ∈ f.lines.drop (lineOfPos f endP), a < b := by
    intro a ha b hb
    have haE : a ∈ f.lines.take (lineOfPos f endP) := by
      have htt : f.lines.take (lineOfPos f start)
          = (f.lines.take (lineOfPos f endP)).take (lineOfPos f start) := by
        rw [List.take_take]
        rw [Nat.min_eq_left hse]
      rw [htt] at ha
      exact List.mem_of_mem_take ha
    have h0 := hpw
    rw [← List.take_append_drop (lineOfPos f endP) f.lines] at h0
    exact (List.pairwise_append.1 h0).2.2 a haE b hb
  have hEbound : ∀ b ∈ f.lines.drop (lineOfPos f endP),
      f.lines.getD (lineOfPos f endP) 0 ≤ b := by
    intro b hb
    have hg : f.lines.getD (lineOfPos f endP) 0 = f.lines[lineOfPos f endP] := by
      rw [List.getD_eq_getElem?_getD, List.getElem?_eq_getElem hend]
      rfl
    rw [List.drop_eq_getElem_cons hend] at hb
    rcases List.mem_cons.1 hb with hb | hb
    · rw [hg, hb]
    · have h1 := hdropE
      rw [List.drop_eq_getElem_cons hend, List.pairwise_cons] at h1
      have := h1.1 b hb
      omega
  have hPairComposed :
      (sortDeclLines f specs start endP).Pairwise (fun a b => a < b) := by
    rw [sortDeclLines_decomp, List.append_assoc, List.pairwise_append]
    refine ⟨List.Pairwise.sublist (List.take_sublist _ _) hpw, ?_, ?_⟩
    · rw [List.pairwise_append]
      refine ⟨?_, hdropE, ?_⟩
      · rw [hImp]
        exact hslots.1
      · intro x hx b hb
        rw [hImp] at hx
        have hxu := (hslots.2.1 x hx).2
        have hEb := hEbound b hb
        omega
    · intro a ha y hy
      rcases List.mem_append.1 hy with hy | hy
      · rw [hImp] at hy
        have hylb := (hslots.2.1 y hy).1
        rw [hoff0] at hylb
        have := hcrossL a ha
        omega
      · exact hcrossE a ha y hy
  have hflatlen : (((emissionGroups specs).map sortGroup).flatten).length
      = specs.length :=
    ((map_sortGroup_flatten_perm _).trans (emissionGroups_flatten_perm specs)).length_eq
  have hsizes : ∀ o ∈ sortDeclLines f specs start endP, o < f.size := by
    intro o ho
    rw [sortDeclLines_decomp] at ho
    rcases List.mem_append.1 ho with ho | ho
    · rcases List.mem_append.1 ho with ho | ho
      · exact hsz o (List.mem_of_mem_take ho)
      · rw [hImp] at ho
        have h1 := (hslots.2.1 o ho).2
        have h2 : f.lines.getD (lineOfPos f endP) 0 < f.size :=
          hsz _ (List.mem_of_mem_drop hEmem)
        omega
    · exact hsz o (List.mem_of_mem_drop ho)
  refine ⟨hPairComposed, ?_, ?_, hsizes⟩
  · rw [sortDeclLines_decomp]
    simp only [List.length_append, List.length_take, List.length_drop]
    rw [hImp, (groupsRun_lengths _ _).2, hflatlen, Nat.min_eq_left (le_of_lt hstart)]
  · show setLines f (sortDeclLines f specs start endP) = _
    exact setLines_of_valid f _ hPairComposed hsizes

/-- C3 (amended): whenever the synthesized slots fit strictly before the first
    copied line offset after the block (in particular for the usual layout with
    one entry per line and the closing delimiter on its own line), the spliced
    line table of the fixed-bucket variant is strictly increasing, has exactly
    one entry per emitted line — prefix lines, one slot per entry, one slot per
    non-empty group, suffix lines — and is actually installed in the file.  (A
    block violating the fit condition produces a non-monotonic table that
    `SetLines` silently rejects; see the counterexample.) -/
theorem c3_line_table (f : FileModel) (specs : List ImportSpec) (start endP : Nat)
    (hpw : f.lines.Pairwise (fun a b => a < b))
    (hsz : ∀ o ∈ f.lines, o < f.size)
    (hwf : ∀ s ∈ specs, specPos s ≤ specEnd s)
    (hstart : lineOfPos f start < f.lines.length)
    (hse : lineOfPos f start ≤ lineOfPos f endP)
    (hend : lineOfPos f endP < f.lines.length)
    (hfit : (sortDeclState f specs start).offset
        ≤ f.lines.getD (lineOfPos f endP) 0) :
    ((sortDeclLines f specs start endP).Pairwise (fun a b => a < b))
    ∧ ((sortDeclLines f specs start endP).length
        = lineOfPos f start
          + (specs.length
             + (((emissionGroups specs).map sortGroup).filter
                  (fun g2 => !g2.isEmpty)).length)
          + (f.lines.length - lineOfPos f endP))
    ∧ ((sortDecl f specs start endP).2
        = { f with lines := sortDeclLines f specs start endP }) := by
  have h := tableFacts f specs start endP hpw hsz hwf hstart hse hend hfit
  exact ⟨h.1, h.2.1, h.2.2.1⟩

/-- C3 witness: the amended line-table theorem evaluated on a concrete
    well-formed two-entry block. -/
theorem c3_line_table_witness :
    (sortDeclLines ⟨[0, 13, 22, 29, 38, 40], 50⟩
        [⟨none, "\"fmt\"", 24, 0, ""⟩, ⟨none, "\"a.b/c\"", 31, 0, ""⟩] 14 40).Pairwise
      (fun a b => a < b) :=
  (c3_line_table ⟨[0, 13, 22, 29, 38, 40], 50⟩
    [⟨none, "\"fmt\"", 24, 0, ""⟩, ⟨none, "\"a.b/c\"", 31, 0, ""⟩] 14 40
    (by decide) (by decide) (by decide) (by decide) (by decide) (by decide)
    (by decide)).1

/-- C3 counterexample: for a legal single-line block
    `import ("fmt"; "a.b/c"; "k8s.io/x"; "k8s.io/kubernetes/y")` the spliced
    table is NOT strictly increasing (the copied tail offset 72 falls below the
    synthesized slots), and `SetLines` therefore silently keeps the old table. -/
theorem c3_counterexample :
    ¬ ((sortDeclLines ⟨[0, 13, 72], 73⟩
        [⟨none, "\"fmt\"", 22, 0, ""⟩, ⟨none, "\"a.b/c\"", 29, 0, ""⟩,
         ⟨none, "\"k8s.io/x\"", 38, 0, ""⟩,
         ⟨none, "\"k8s.io/kubernetes/y\"", 50, 0, ""⟩] 14 72).Pairwise
          (fun a b => a < b))
    ∧ ((sortDecl ⟨[0, 13, 72], 73⟩
        [⟨none, "\"fmt\"", 22, 0, ""⟩, ⟨none, "\"a.b/c\"", 29, 0, ""⟩,
         ⟨none, "\"k8s.io/x\"", 38, 0, ""⟩,
         ⟨none, "\"k8s.io/kubernetes/y\"", 50, 0, ""⟩] 14 72).2
      = ⟨[0, 13, 72], 73⟩) := by
  refine ⟨by decide, by decide⟩

theorem reposition_idem (s : ImportSpec) (a b : Nat) :
    reposition (reposition s a b) a b = reposition s a b := by
  cases s with
  | mk nm pv vp ep cm =>
    cases nm <;> simp [reposition]

theorem placeRun_idem (g : List ImportSpec) :
    ∀ off, (∀ s ∈ g, specPos s ≤ specEnd s) →
      placeRun off ((placeRun off g).1) = placeRun off g := by
  induction g with
  | nil => intro off _; simp [placeRun]
  | cons s rest ih =>
    intro off hwf
    have hs : specPos s ≤ specEnd s := hwf s (by simp)
    have hne : off + 1 + specEnd s - specPos s ≠ 0 := by omega
    simp only [placeRun]
    rw [specPos_reposition, specEnd_reposition _ _ _ hne]
    have harith : off + 1 + (off + 1 + specEnd s - specPos s) - (off + 1)
        = off + 1 + specEnd s - specPos s := by omega
    rw [harith, reposition_idem, ih _ (fun x hx => hwf x (by simp [hx]))]

theorem sorted_placed (g : List ImportSpec) (off : Nat) :
    List.Sorted pathLe ((placeRun off (sortGroup g)).1) := by
  have hmapeq : ((placeRun off (sortGroup g)).1).map (fun s => s.pathValue)
      = (sortGroup g).map (fun s => s.pathValue) := placeRun_map_path _ off
  have hs : List.Pairwise (fun a b : ImportSpec => a.pathValue ≤ b.pathValue)
      (sortGroup g) := List.sorted_insertionSort pathLe g
  have h2 : List.Pairwise (fun a b : ImportSpec => a.pathValue ≤ b.pathValue)
      ((placeRun off (sortGroup g)).1) := by
    rw [← List.pairwise_map] at hs ⊢
    rw [hmapeq]
    exact hs
  exact h2

theorem sortGroup_placed (g : List ImportSpec) (off : Nat) :
    sortGroup ((placeRun off (sortGroup g)).1) = (placeRun off (sortGroup g)).1 :=
  List.Sorted.insertionSort_eq (sorted_placed g off)

/-- The per-group placed blocks of the group loop, with the offset chain. -/
def placedBlocks : Nat → List (List ImportSpec) → List (List ImportSpec)
  | _, [] => []
  | off, g :: gs => (placeRun off g).1 :: placedBlocks (nextOff off g) gs

theorem groupsRun_ents_blocks (gs : List (List ImportSpec)) :
    ∀ off, (groupsRun off gs).1 = (placedBlocks off gs).flatten := by
  induction gs with
  | nil => intro off; simp [groupsRun, placedBlocks]
  | cons g gs ih =>
    intro off
    rw [groupsRun_ents_cons, placedBlocks, List.flatten_cons, ih]

theorem nextOff_placed (g : List ImportSpec) (off : Nat)
    (hwf : ∀ s ∈ g, specPos s ≤ specEnd s) :
    nextOff off ((placeRun off g).1) = nextOff off g := by
  unfold nextOff
  rw [placeRun_idem g off hwf, (placeRun_lengths g off).1]

theorem groupsRun_idem (gs : List (List ImportSpec)) :
    ∀ off, (∀ s ∈ gs.flatten, specPos s ≤ specEnd s) →
      groupsRun off (placedBlocks off gs) = groupsRun off gs := by
  induction gs with
  | nil => intro off _; rfl
  | cons g gs ih =>
    intro off hwf
    have hg : ∀ s ∈ g, specPos s ≤ specEnd s := fun s hs => hwf s (by simp [hs])
    have hlen : ((placeRun off g).1).length = g.length := (placeRun_lengths g off).1
    rw [placedBlocks]
    rcases eq_or_ne g [] with hge | hge
    · subst hge
      simp only [placeRun, nextOff]
      rw [groupsRun_cons_nil]
      simpa [placeRun] using ih off (fun s hs => hwf s (by simp [hs]))
    · have hpge : (placeRun off g).1 ≠ [] := by
        intro hcon
        apply hge
        have := hlen
        rw [hcon] at this
        simpa using this.symm
      rw [groupsRun_cons_ne _ _ _ hpge, groupsRun_cons_ne _ _ _ hge,
        placeRun_idem g off hg]
      have hnext : nextOff off g = (placeRun off g).2.2 + 1 := by
        unfold nextOff
        rw [if_pos (by simpa using hge)]
      rw [← hnext, ih (nextOff off g) (fun s hs => hwf s (by simp [hs]))]

theorem emissionGroups_of_blocks (l p1 p2 p3 p4 : List ImportSpec)
    (hl : l = p1 ++ (p2 ++ (p3 ++ p4)))
    (h1 : ∀ x ∈ p1, classify x = Bucket.std)
    (h2 : ∀ x ∈ p2, classify x = Bucket.ext)
    (h3 : ∀ x ∈ p3, classify x = Bucket.k8s)
    (h4 : ∀ x ∈ p4, classify x = Bucket.loc) :
    emissionGroups l = [p1, p2, p3, p4] := by
  subst hl
  unfold emissionGroups
  simp only [List.filter_append]
  rw [filter_classify_self h1, filter_classify_self h2, filter_classify_self h3,
    filter_classify_self h4,
    filter_classify_nil Bucket.std h2 (by decide),
    filter_classify_nil Bucket.std h3 (by decide),
    filter_classify_nil Bucket.std h4 (by decide),
    filter_classify_nil Bucket.ext h1 (by decide),
    filter_classify_nil Bucket.ext h3 (by decide),
    filter_classify_nil Bucket.ext h4 (by decide),
    filter_classify_nil Bucket.k8s h1 (by decide),
    filter_classify_nil Bucket.k8s h2 (by decide),
    filter_classify_nil Bucket.k8s h4 (by decide),
    filter_classify_nil Bucket.loc h1 (by decide),
    filter_classify_nil Bucket.loc h2 (by decide),
    filter_classify_nil Bucket.loc h3 (by decide)]
  simp

theorem groupsRun_wf (gs : List (List ImportSpec)) :
    ∀ off, (∀ s ∈ gs.flatten, specPos s ≤ specEnd s) →
      ∀ x ∈ (groupsRun off gs).1, specPos x ≤ specEnd x := by
  induction gs with
  | nil => intro off _ x hx; simp [groupsRun] at hx
  | cons g gs ih =>
    intro off hwf x hx
    rw [groupsRun_ents_cons] at hx
    rcases List.mem_append.1 hx with hx | hx
    · exact placeRun_wf g off (fun s hs => hwf s (by simp [hs])) x hx
    · exact ih _ (fun s hs => hwf s (by simp [hs])) x hx

theorem groupsRun_reclassify (g1 g2 g3 g4 : List ImportSpec) (off : Nat)
    (hwf1 : ∀ s ∈ g1, specPos s ≤ specEnd s)
    (hwf2 : ∀ s ∈ g2, specPos s ≤ specEnd s)
    (hwf3 : ∀ s ∈ g3, specPos s ≤ specEnd s)
    (hwf4 : ∀ s ∈ g4, specPos s ≤ specEnd s)
    (hc1 : ∀ x ∈ g1, classify x = Bucket.std)
    (hc2 : ∀ x ∈ g2, classify x = Bucket.ext)
    (hc3 : ∀ x ∈ g3, classify x = Bucket.k8s)
    (hc4 : ∀ x ∈ g4, classify x = Bucket.loc) :
    groupsRun off ((emissionGroups
        ((groupsRun off [sortGroup g1, sortGroup g2, sortGroup g3, sortGroup g4]).1)).map
          sortGroup)
      = groupsRun off [sortGroup g1, sortGroup g2, sortGroup g3, sortGroup g4] := by
  have hwfs : ∀ s ∈ ([sortGroup g1, sortGroup g2, sortGroup g3, sortGroup g4] :
      List (List ImportSpec)).flatten, specPos s ≤ specEnd s := by
    intro s hs
    simp only [List.flatten_cons, List.flatten_nil, List.append_nil,
      List.mem_append] at hs
    rcases hs with hs | hs | hs | hs
    all_goals first
      | exact hwf1 s ((List.perm_insertionSort pathLe g1).mem_iff.1 hs)
      | exact hwf2 s ((List.perm_insertionSort pathLe g2).mem_iff.1 hs)
      | exact hwf3 s ((List.perm_insertionSort pathLe g3).mem_iff.1 hs)
      | exact hwf4 s ((List.perm_insertionSort pathLe g4).mem_iff.1 hs)
  have hpb : placedBlocks off [sortGroup g1, sortGroup g2, sortGroup g3, sortGroup g4]
      = [(placeRun off (sortGroup g1)).1,
         (placeRun (nextOff off (sortGroup g1)) (sortGroup g2)).1,
         (placeRun (nextOff (nextOff off (sortGroup g1)) (sortGroup g2))
            (sortGroup g3)).1,
         (placeRun (nextOff (nextOff (nextOff off (sortGroup g1)) (sortGroup g2))
            (sortGroup g3)) (sortGroup g4)).1] := by
    simp [placedBlocks]
  have hents : (groupsRun off [sortGroup g1, sortGroup g2, sortGroup g3,
      sortGroup g4]).1
      = (placeRun off (sortGroup g1)).1
        ++ ((placeRun (nextOff off (sortGroup g1)) (sortGroup g2)).1
        ++ ((placeRun (nextOff (nextOff off (sortGroup g1)) (sortGroup g2))
              (sortGroup g3)).1
        ++ (placeRun (nextOff (nextOff (nextOff off (sortGroup g1)) (sortGroup g2))
              (sortGroup g3)) (sortGroup g4)).1)) := by
    rw [groupsRun_ents_blocks, hpb]
    simp
  have hB1 := all_classify_of_map_eq (placeRun_map_classify (sortGroup g1) off)
    (mem_sortGroup_classify hc1)
  have hB2 := all_classify_of_map_eq
    (placeRun_map_classify (sortGroup g2) (nextOff off (sortGroup g1)))
    (mem_sortGroup_classify hc2)
  have hB3 := all_classify_of_map_eq
    (placeRun_map_classify (sortGroup g3)
      (nextOff (nextOff off (sortGroup g1)) (sortGroup g2)))
    (mem_sortGroup_classify hc3)
  have hB4 := all_classify_of_map_eq
    (placeRun_map_classify (sortGroup g4)
      (nextOff (nextOff (nextOff off (sortGroup g1)) (sortGroup g2)) (sortGroup g3)))
    (mem_sortGroup_classify hc4)
  have heg := emissionGroups_of_blocks _ _ _ _ _ hents hB1 hB2 hB3 hB4
  rw [heg]
  have hms : ([(placeRun off (sortGroup g1)).1,
      (placeRun (nextOff off (sortGroup g1)) (sortGroup g2)).1,
      (placeRun (nextOff (nextOff off (sortGroup g1)) (sortGroup g2))
        (sortGroup g3)).1,
      (placeRun (nextOff (nextOff (nextOff off (sortGroup g1)) (sortGroup g2))
        (sortGroup g3)) (sortGroup g4)).1] : List (List ImportSpec)).map sortGroup
      = [(placeRun off (sortGroup g1)).1,
         (placeRun (nextOff off (sortGroup g1)) (sortGroup g2)).1,
         (placeRun (nextOff (nextOff off (sortGroup g1)) (sortGroup g2))
            (sortGroup g3)).1,
         (placeRun (nextOff (nextOff (nextOff off (sortGroup g1)) (sortGroup g2))
            (sortGroup g3)) (sortGroup g4)).1] := by
    simp only [List.map_cons, List.map_nil, sortGroup_placed]
  rw [hms, ← hpb, groupsRun_idem _ off hwfs]

set_option maxHeartbeats 2000000 in
/-- C9: on a well-formed block (sorted original table, spans inside the block,
    synthesized slots fitting before the block end) the transformation is
    idempotent — applying `sortDecl` to its own output, which is already
    grouped in rule-priority order, sorted within groups and separated by
    single blank-line slots, changes neither the entry order, nor the spans,
    nor the installed line table. -/
theorem c9_idempotent (f : FileModel) (specs : List ImportSpec) (start endP : Nat)
    (hpw : f.lines.Pairwise (fun a b => a < b))
    (hsz : ∀ o ∈ f.lines, o < f.size)
    (hwf : ∀ s ∈ specs, specPos s ≤ specEnd s)
    (hne : specs ≠ [])
    (hstart : lineOfPos f start < f.lines.length)
    (hse : lineOfPos f start ≤ lineOfPos f endP)
    (hend : lineOfPos f endP < f.lines.length)
    (hsep : start ≤ endP)
    (hin : (sortDeclState f specs start).offset ≤ endP)
    (hfit : (sortDeclState f specs start).offset
        ≤ f.lines.getD (lineOfPos f endP) 0) :
    sortDecl (sortDecl f specs start endP).2 ((sortDecl f specs start endP).1)
        start endP
      = ((sortDecl f specs start endP).1, (sortDecl f specs start endP).2) := by
  have htf := tableFacts f specs start endP hpw hsz hwf hstart hse hend hfit
  have hwfflat : ∀ s ∈ ((emissionGroups specs).map sortGroup).flatten,
      specPos s ≤ specEnd s :=
    fun s hs => hwf s (mem_sorted_groups specs s hs)
  have hImp : (sortDeclState f specs start).impLines
      = (groupsRun (lineStartOffset f (lineOfPos f start + 1))
          ((emissionGroups specs).map sortGroup)).2.1 := by
    rw [sortDeclState_eq]
  have hOut : (sortDeclState f specs start).orderedImports
      = (groupsRun (lineStartOffset f (lineOfPos f start + 1))
          ((emissionGroups specs).map sortGroup)).1 := by
    rw [sortDeclState_eq]
  have hOff : (sortDeclState f specs start).offset
      = (groupsRun (lineStartOffset f (lineOfPos f start + 1))
          ((emissionGroups specs).map sortGroup)).2.2 := by
    rw [sortDeclState_eq]
  have hslots := groupsRun_slots ((emissionGroups specs).map sortGroup)
    (lineStartOffset f (lineOfPos f start + 1)) hwfflat
  have hoff0 : lineStartOffset f (lineOfPos f start + 1)
      = f.lines.getD (lineOfPos f start) 0 := by
    simp [lineStartOffset]
  have hprelen : (f.lines.take (lineOfPos f start)).length = lineOfPos f start := by
    rw [List.length_take]
    exact Nat.min_eq_left (le_of_lt hstart)
  have htab : sortDeclLines f specs start endP
      = f.lines.take (lineOfPos f start)
        ++ ((sortDeclState f specs start).impLines
            ++ f.lines.drop (lineOfPos f endP)) := by
    rw [sortDeclLines_decomp, List.append_assoc]
  have hf1 : (sortDecl f specs start endP).2
      = { f with lines := sortDeclLines f specs start endP } := htf.2.2.1
  have hf1lines : ((sortDecl f specs start endP).2).lines
      = sortDeclLines f specs start endP := by
    rw [hf1]
  have hf1size : ((sortDecl f specs start endP).2).size = f.size := by
    rw [hf1]
  have himplen : ((sortDeclState f specs start).impLines).length
      = (((emissionGroups specs).map sortGroup).flatten).length
        + (((emissionGroups specs).map sortGroup).filter
            (fun g2 => !g2.isEmpty)).length := by
    rw [hImp]
    exact (groupsRun_lengths _ _).2
  have hflatlen : ((((emissionGroups specs).map sortGroup)).flatten).length
      = specs.length :=
    ((map_sortGroup_flatten_perm _).trans (emissionGroups_flatten_perm specs)).length_eq
  have himpne : (sortDeclState f specs start).impLines ≠ [] := by
    intro hcon
    have h0 : ((sortDeclState f specs start).impLines).length = 0 := by
      rw [hcon]
      rfl
    rw [himplen, hflatlen] at h0
    have := List.length_pos.2 hne
    omega
  obtain ⟨tl, htl⟩ : ∃ tl, (sortDeclState f specs start).impLines
      = lineStartOffset f (lineOfPos f start + 1) :: tl := by
    have hh := groupsRun_head ((emissionGroups specs).map sortGroup)
      (lineStartOffset f (lineOfPos f start + 1)) (by rw [← hImp]; exact himpne)
    rw [← hImp] at hh
    cases himp2 : (sortDeclState f specs start).impLines with
    | nil => exact absurd himp2 himpne
    | cons a tl =>
      rw [himp2] at hh
      simp only [List.head?_cons] at hh
      exact ⟨tl, by rw [Option.some.inj hh]⟩
  have hallpre : ∀ x ∈ f.lines.take (lineOfPos f start),
      (fun o => decide (o ≤ start - 1)) x = true :=
    mem_take_takeWhile_le f.lines (fun o => decide (o ≤ start - 1))
  have hLfail : (fun o => decide (o ≤ start - 1))
      (f.lines.getD (lineOfPos f start) 0) = false :=
    takeWhile_getD_false f.lines (fun o => decide (o ≤ start - 1)) hstart
  have hEfail : (fun o => decide (o ≤ endP - 1))
      (f.lines.getD (lineOfPos f endP) 0) = false :=
    takeWhile_getD_false f.lines (fun o => decide (o ≤ endP - 1)) hend
  have halpha : lineOfPos ((sortDecl f specs start endP).2) start = lineOfPos f start := by
    unfold lineOfPos
    rw [hf1lines, htab, takeWhile_all_append _ _ hallpre, htl, List.cons_append,
      takeWhile_cons_false _ (by rw [hoff0]; exact hLfail), List.append_nil]
    exact hprelen
  have hbeta : lineStartOffset ((sortDecl f specs start endP).2)
      (lineOfPos ((sortDecl f specs start endP).2) start + 1)
      = lineStartOffset f (lineOfPos f start + 1) := by
    rw [halpha]
    show (((sortDecl f specs start endP).2).lines).getD (lineOfPos f start + 1 - 1) 0
      = lineStartOffset f (lineOfPos f start + 1)
    rw [Nat.add_sub_cancel, hf1lines, htab,
      List.getD_append_right _ _ _ _ (le_of_eq hprelen), hprelen, Nat.sub_self,
      htl, List.cons_append]
    rfl
  have hgs : ((emissionGroups specs).map sortGroup)
      = [sortGroup (specs.filter (fun s => classify s == Bucket.std)),
         sortGroup (specs.filter (fun s => classify s == Bucket.ext)),
         sortGroup (specs.filter (fun s => classify s == Bucket.k8s)),
         sortGroup (specs.filter (fun s => classify s == Bucket.loc))] := rfl
  have hout1eq : (sortDecl f specs start endP).1
      = (groupsRun (lineStartOffset f (lineOfPos f start + 1))
          ((emissionGroups specs).map sortGroup)).1 := hOut
  have hGG : groupsRun (lineStartOffset f (lineOfPos f start + 1))
      ((emissionGroups ((sortDecl f specs start endP).1)).map sortGroup)
      = groupsRun (lineStartOffset f (lineOfPos f start + 1))
          ((emissionGroups specs).map sortGroup) := by
    rw [hout1eq, hgs]
    exact groupsRun_reclassify _ _ _ _ _
      (fun s hs => hwf s (List.mem_of_mem_filter hs))
      (fun s hs => hwf s (List.mem_of_mem_filter hs))
      (fun s hs => hwf s (List.mem_of_mem_filter hs))
      (fun s hs => hwf s (List.mem_of_mem_filter hs))
      mem_filter_classify mem_filter_classify mem_filter_classify mem_filter_classify
  have hstate2 : sortDeclState ((sortDecl f specs start endP).2)
      ((sortDecl f specs start endP).1) start = sortDeclState f specs start := by
    rw [sortDeclState_eq, hbeta, hGG, ← sortDeclState_eq]
  have hallimpE : ∀ x ∈ (sortDeclState f specs start).impLines,
      (fun o => decide (o ≤ endP - 1)) x = true := by
    intro x hx
    rw [hImp] at hx
    have h1 := (hslots.2.1 x hx).2
    rw [← hOff] at h1
    have h2 : x < endP := lt_of_lt_of_le h1 hin
    simp only [decide_eq_true_eq]
    omega
  have hdropEcons : f.lines.drop (lineOfPos f endP)
      = f.lines.getD (lineOfPos f endP) 0 :: f.lines.drop (lineOfPos f endP + 1) := by
    rw [List.drop_eq_getElem_cons hend]
    congr 1
    rw [List.getD_eq_getElem?_getD, List.getElem?_eq_getElem hend]
    rfl
  have hpreE : ∀ x ∈ f.lines.take (lineOfPos f start),
      (fun o => decide (o ≤ endP - 1)) x = true := by
    intro x hx
    have := hallpre x hx
    simp only [decide_eq_true_eq] at this ⊢
    omega
  have hgamma : lineOfPos ((sortDecl f specs start endP).2) endP
      = lineOfPos f start + ((sortDeclState f specs start).impLines).length := by
    unfold lineOfPos
    rw [hf1lines, htab, takeWhile_all_append _ _ hpreE,
      takeWhile_all_append _ _ hallimpE, hdropEcons,
      takeWhile_cons_false _ hEfail, List.append_nil, List.length_append, hprelen]
    rfl
  have htake2 : (((sortDecl f specs start endP).2).lines).take (lineOfPos f start)
      = f.lines.take (lineOfPos f start) := by
    rw [hf1lines, htab, List.take_left' hprelen]
  have hdrop2 : (((sortDecl f specs start endP).2).lines).drop
      (lineOfPos f start + ((sortDeclState f specs start).impLines).length)
      = f.lines.drop (lineOfPos f endP) := by
    rw [hf1lines, htab, ← List.append_assoc]
    apply List.drop_left'
    rw [List.length_append, hprelen]
  have htable2 : sortDeclLines ((sortDecl f specs start endP).2)
      ((sortDecl f specs start endP).1) start endP
      = sortDeclLines f specs start endP := by
    rw [sortDeclLines_decomp, halpha, hgamma, hstate2, htake2, hdrop2]
    exact (sortDeclLines_decomp f specs start endP).symm
  have hsizes2 : ∀ o ∈ sortDeclLines f specs start endP,
      o < ((sortDecl f specs start endP).2).size := by
    rw [hf1size]
    exact htf.2.2.2
  have hsetl : setLines ((sortDecl f specs start endP).2)
      (sortDeclLines f specs start endP) = (sortDecl f specs start endP).2 := by
    rw [setLines_of_valid _ _ htf.1 hsizes2, hf1]
  refine Prod.ext_iff.2 ⟨?_, ?_⟩
  · show (sortDeclState ((sortDecl f specs start endP).2)
        ((sortDecl f specs start endP).1) start).orderedImports
      = (sortDecl f specs start endP).1
    rw [hstate2]
    rfl
  · show setLines ((sortDecl f specs start endP).2)
        (sortDeclLines ((sortDecl f specs start endP).2)
          ((sortDecl f specs start endP).1) start endP)
      = (sortDecl f specs start endP).2
    rw [htable2]
    exact hsetl

/-- C9 witness: idempotence evaluated on a concrete well-formed two-entry
    block. -/
theorem c9_idempotent_witness :
    sortDecl (sortDecl ⟨[0, 13, 22, 29, 38, 40], 50⟩
        [⟨none, "\"fmt\"", 24, 0, ""⟩, ⟨none, "\"a.b/c\"", 31, 0, ""⟩] 14 40).2
      ((sortDecl ⟨[0, 13, 22, 29, 38, 40], 50⟩
        [⟨none, "\"fmt\"", 24, 0, ""⟩, ⟨none, "\"a.b/c\"", 31, 0, ""⟩] 14 40).1) 14 40
      = ((sortDecl ⟨[0, 13, 22, 29, 38, 40], 50⟩
          [⟨none, "\"fmt\"", 24, 0, ""⟩, ⟨none, "\"a.b/c\"", 31, 0, ""⟩] 14 40).1,
         (sortDecl ⟨[0, 13, 22, 29, 38, 40], 50⟩
          [⟨none, "\"fmt\"", 24, 0, ""⟩, ⟨none, "\"a.b/c\"", 31, 0, ""⟩] 14 40).2) :=
  c9_idempotent ⟨[0, 13, 22, 29, 38, 40], 50⟩
    [⟨none, "\"fmt\"", 24, 0, ""⟩, ⟨none, "\"a.b/c\"", 31, 0, ""⟩] 14 40
    (by decide) (by decide) (by decide) (by decide) (by decide) (by decide)
    (by decide) (by decide) (by decide) (by decide)

end Fmtimports
